import Mathlib

/-!
# Ring index arithmetic and scatterlist coalescing of the ntrdma driver

A shallow embedding of `drivers/infiniband/hw/ntrdma/ntrdma_ring.h` and of the
function `ntc_compress_sgl` of `drivers/ntc/ntc_phys.c`.

The C type `u32` is modelled by a natural number below `2 ^ 32 = 4294967296`;
every arithmetic operation of the source is followed by the reduction modulo
`2 ^ 32` that the machine performs.  The C type `int` is modelled by an
integer in `[-2 ^ 31, 2 ^ 31)`, converted from and to `u32` modulo `2 ^ 32`,
with wrapping subtraction (the kernel is built with
`-fno-strict-overflow`).
-/

namespace Ntrdma

/-! ## Machine arithmetic -/

/-- Addition of two `u32` values: `a + b` in C. -/
def u32_add (a b : Nat) : Nat := (a + b) % 4294967296

/-- Subtraction of two `u32` values: `a - b` in C, for `a, b < 2 ^ 32`. -/
def u32_sub (a b : Nat) : Nat := (a + 4294967296 - b) % 4294967296

/-- Left shift by one of a `u32` value: `a << 1` in C. -/
def u32_shl1 (a : Nat) : Nat := (a * 2) % 4294967296

/-- Value of the object representation of a `u32` read as an `int`. -/
def s32_of_u32 (a : Nat) : Int :=
  if a < 2147483648 then (a : Int) else (a : Int) - 4294967296

/-- Conversion of an integer to `u32`: reduction modulo `2 ^ 32`. -/
def u32_of_int (z : Int) : Nat := (z % 4294967296).toNat

/-- Subtraction of two `int` values: `a - b` in C, wrapping modulo `2 ^ 32`. -/
def s32_sub (a b : Int) : Int := s32_of_u32 (u32_of_int (a - b))

/-! ## The functions of `ntrdma_ring.h` -/

/-- Outputs of `ntrdma_ring_produce`: the values stored through the pointers
`prod_idx`, `prod_end` and `base`. -/
structure produce_range where
  prod_idx : Nat
  prod_end : Nat
  base : Nat

/-- Outputs of `ntrdma_ring_consume`: the values stored through the pointers
`cons_idx`, `cons_end` and `base`. -/
structure consume_range where
  cons_idx : Nat
  cons_end : Nat
  base : Nat

/-- Initialize a range of indices for production (`ntrdma_ring_produce`).
The two `WARN` statements only log; their conditions are
`ntrdma_ring_produce_warn_range` and `ntrdma_ring_produce_warn_distance`. -/
def ntrdma_ring_produce (prod cons cap : Nat) : produce_range :=
  if prod < cap then
    { base := 0
      prod_idx := prod
      prod_end := if cons < cap then cap else u32_sub cons cap }
  else
    { base := cap
      prod_idx := u32_sub prod cap
      prod_end := if cons < cap then cons else cap }

/-- Condition of the first `WARN` of `ntrdma_ring_produce`:
`prod >= (u32)(cap << 1) || cons >= (u32)(cap << 1)`. -/
def ntrdma_ring_produce_warn_range (prod cons cap : Nat) : Bool :=
  decide (u32_shl1 cap ≤ prod) || decide (u32_shl1 cap ≤ cons)

/-- Condition of the second `WARN` of `ntrdma_ring_produce`:
`(int)prod - (int)cons > (int)cap ||
 ((int)prod - (int)cons < 0 && (int)cons - (int)prod < (int)cap)`. -/
def ntrdma_ring_produce_warn_distance (prod cons cap : Nat) : Bool :=
  decide (s32_sub (s32_of_u32 prod) (s32_of_u32 cons) > s32_of_u32 cap) ||
    (decide (s32_sub (s32_of_u32 prod) (s32_of_u32 cons) < 0) &&
      decide (s32_sub (s32_of_u32 cons) (s32_of_u32 prod) < s32_of_u32 cap))

/-- Initialize a range of indices for consumption (`ntrdma_ring_consume`). -/
def ntrdma_ring_consume (prod cons cap : Nat) : consume_range :=
  if cons < cap then
    { base := 0
      cons_idx := cons
      cons_end := if prod < cap then prod else cap }
  else
    { base := cap
      cons_idx := u32_sub cons cap
      cons_end := if prod < cap then cap else u32_sub prod cap }

/-- Compute a new index after producing or consuming (`ntrdma_ring_update`). -/
def ntrdma_ring_update (idx base cap : Nat) : Nat :=
  if idx = cap then u32_sub cap base else u32_add base idx

/-- Calculate the number of entries produced (`ntrdma_ring_count`). -/
def ntrdma_ring_count (prod cons cap : Nat) : Nat :=
  let prod := if prod < cons then u32_add prod (u32_shl1 cap) else prod
  u32_sub prod cons

/-- Calculate the number of entries available (`ntrdma_ring_space`). -/
def ntrdma_ring_space (prod cons cap : Nat) : Nat :=
  let prod := if prod < cons then u32_add prod (u32_shl1 cap) else prod
  u32_sub (u32_add cap cons) prod

/-- Calculate the number of contiguous entries produced
(`ntrdma_ring_count_ctg`).  The source keeps `idx` and `end` in `int`
variables, subtracts them as `int` and converts the difference to `u32`. -/
def ntrdma_ring_count_ctg (prod cons cap : Nat) : Nat :=
  let r := ntrdma_ring_consume prod cons cap
  u32_of_int (s32_sub (s32_of_u32 r.cons_end) (s32_of_u32 r.cons_idx))

/-- Calculate the number of contiguous entries available
(`ntrdma_ring_space_ctg`).  The source keeps `idx` and `end` in `int`
variables, subtracts them as `int` and converts the difference to `u32`. -/
def ntrdma_ring_space_ctg (prod cons cap : Nat) : Nat :=
  let r := ntrdma_ring_produce prod cons cap
  u32_of_int (s32_sub (s32_of_u32 r.prod_end) (s32_of_u32 r.prod_idx))

/-- The ring is valid if prod is no more than cap entries ahead of cons
(`ntrdma_ring_valid`). -/
def ntrdma_ring_valid (prod cons cap : Nat) : Bool :=
  if u32_shl1 cap ≤ prod then false
  else if u32_shl1 cap ≤ cons then false
  else decide (ntrdma_ring_count prod cons cap ≤ cap)

/-! ## The function `ntc_compress_sgl` of `ntc_phys.c`

The types `dma_addr_t`, `size_t` and `u64` are taken to be 64 bits wide: a
natural number below `2 ^ 64 = 18446744073709551616`, every operation reduced
modulo `2 ^ 64`.  The `int` counters `i` and `dma_count` are natural numbers (a
scatterlist has fewer than `2 ^ 31` entries); the `int` parameter `count` is an
integer. -/

/-- Addition of two 64-bit unsigned values: `a + b` in C. -/
def u64_add (a b : Nat) : Nat := (a + b) % 18446744073709551616

/-- Subtraction of two 64-bit unsigned values: `a - b` in C, for `a, b < 2 ^ 64`. -/
def u64_sub (a b : Nat) : Nat := (a + 18446744073709551616 - b) % 18446744073709551616

/-- Bitwise complement of a 64-bit unsigned value: `~a` in C. -/
def u64_not (a : Nat) : Nat := 18446744073709551615 - a

/-- Modelled from the spec: `PAGE_MASK` is a macro of the kernel headers, which
are not among the sources; for the page size `PAGE_SIZE` (a power of two, also a
kernel macro, taken as a parameter) it is `~(PAGE_SIZE - 1)`, so that
`x & ~PAGE_MASK` is `x` modulo the page size. -/
def PAGE_MASK (PAGE_SIZE : Nat) : Nat := u64_not (PAGE_SIZE - 1)

/-- Modelled from the spec: an entry of a DMA-mapped `struct scatterlist` (kernel
headers), reduced to the address and length read by `sg_dma_address` and
`sg_dma_len`.  A scatterlist of `nents` entries is the list of its entries, and
`sg_next` steps to the tail of the list. -/
structure scatterlist where
  dma_address : Nat
  dma_length : Nat

/-- Modelled from the spec: `struct ntc_sge` of `linux/ntc.h`, which is not among
the sources: an `(address, length)` range with 64-bit fields. -/
structure ntc_sge where
  addr : Nat
  len : Nat

/-- Store `e` in entry `i` of the output array `sgl`. -/
def sgl_set (sgl : Nat → ntc_sge) (i : Nat) (e : ntc_sge) : Nat → ntc_sge :=
  fun j => if j = i then e else sgl j

/-- State of `ntc_compress_sgl`: the output array behind the pointer `sgl`
(`none` for a null pointer) and the counter `dma_count`. -/
structure compress_state where
  sgl : Option (Nat → ntc_sge)
  dma_count : Nat

/-- The inner `for` loop of `ntc_compress_sgl`: starting from the range
`(dma_addr, dma_len)`, absorb the following entries while the next address is
`dma_addr + dma_len`.  Returns the final `dma_len` and the entries that follow
the last absorbed one. -/
def ntc_compress_sgl_merge (dma_addr : Nat) : Nat → List scatterlist → Nat × List scatterlist
  | dma_len, [] => (dma_len, [])
  | dma_len, next :: rest =>
    if next.dma_address ≠ u64_add dma_addr dma_len then (dma_len, next :: rest)
    else ntc_compress_sgl_merge dma_addr (u64_add dma_len next.dma_length) rest

/-- The end of an iteration of the `for_each_sg` loop of `ntc_compress_sgl`:
store the range `e` in `sgl[dma_count]` when `sgl` is not null and
`dma_count < count`, then increment `dma_count`. -/
def ntc_compress_sgl_store (count : Int) (st : compress_state) (e : ntc_sge) :
    compress_state :=
  { sgl :=
      match st.sgl with
      | none => none
      | some buf =>
        if (st.dma_count : Int) < count then some (sgl_set buf st.dma_count e)
        else some buf
    dma_count := st.dma_count + 1 }

/-- The `for_each_sg` loop of `ntc_compress_sgl`: each iteration takes the entry
`sg`, runs the inner loop from `(sg_dma_address(sg), sg_dma_len(sg))`, stores the
range and goes on with the entry after the last absorbed one.  The first
argument bounds the number of iterations, as `i < nents` does in the source. -/
def ntc_compress_sgl_walk (count : Int) :
    Nat → List scatterlist → compress_state → compress_state
  | 0, _, st => st
  | _ + 1, [], st => st
  | nents + 1, sg :: rest, st =>
    let dma_addr := sg.dma_address
    let m := ntc_compress_sgl_merge dma_addr sg.dma_length rest
    ntc_compress_sgl_walk count nents m.2
      (ntc_compress_sgl_store count st { addr := dma_addr, len := m.1 })

/-- The block after the loop of `ntc_compress_sgl`: when `dma_count` is not
zero, `sgl` is not null and `count > 0`, move the first range by `offset`
(`sgl[0].addr += offset`, `sgl[0].len -= offset`) and, when `dma_count <= count`,
shorten the last range by the unused bytes of the last page,
`(PAGE_SIZE - ((offset + length) & ~PAGE_MASK)) & ~PAGE_MASK`. -/
def ntc_compress_sgl_trim (PAGE_SIZE offset length : Nat) (count : Int)
    (st : compress_state) : compress_state :=
  match st.sgl with
  | none => st
  | some buf =>
    if st.dma_count ≠ 0 ∧ 0 < count then
      let dma_len := offset
      let buf := sgl_set buf 0
        { addr := u64_add (buf 0).addr dma_len, len := u64_sub (buf 0).len dma_len }
      if (st.dma_count : Int) ≤ count then
        let dma_len := (u64_add dma_len length) &&& u64_not (PAGE_MASK PAGE_SIZE)
        let dma_len := (u64_sub PAGE_SIZE dma_len) &&& u64_not (PAGE_MASK PAGE_SIZE)
        { sgl := some (sgl_set buf (st.dma_count - 1)
            { addr := (buf (st.dma_count - 1)).addr
              len := u64_sub (buf (st.dma_count - 1)).len dma_len })
          dma_count := st.dma_count }
      else { sgl := some buf, dma_count := st.dma_count }
    else st

/-- The function `ntc_compress_sgl`: coalesce the scatterlist `sg_head` into
`sgl` with the `for_each_sg` loop, then trim the first and the last range.  The
field `dma_count` of the result is the returned value, the field `sgl` the
output array after the call. -/
def ntc_compress_sgl (PAGE_SIZE : Nat) (sg_head : List scatterlist) (offset length : Nat)
    (sgl : Option (Nat → ntc_sge)) (count : Int) : compress_state :=
  ntc_compress_sgl_trim PAGE_SIZE offset length count
    (ntc_compress_sgl_walk count sg_head.length sg_head { sgl := sgl, dma_count := 0 })

/-- Specification: the coalesced ranges of a segment list whose current range
is `(a, l)`: the range grows while the next segment starts at its end, and is
closed at the first segment that does not. -/
def sg_ranges_from (a : Nat) : Nat → List scatterlist → List ntc_sge
  | l, [] => [{ addr := a, len := l }]
  | l, next :: rest =>
    if next.dma_address = u64_add a l then
      sg_ranges_from a (u64_add l next.dma_length) rest
    else { addr := a, len := l } :: sg_ranges_from next.dma_address next.dma_length rest

/-- Specification: the coalesced ranges of a segment list, in order. -/
def sg_ranges : List scatterlist → List ntc_sge
  | [] => []
  | sg :: rest => sg_ranges_from sg.dma_address sg.dma_length rest

/-- Specification: the output array after the ranges `rs` were offered to it
from index `n` on, entries at indices `count` and above being left alone. -/
def sgl_fill (count : Int) (rs : List ntc_sge) (n : Nat) (buf : Nat → ntc_sge) :
    Nat → ntc_sge :=
  fun j => if n ≤ j ∧ (j : Int) < count then (rs[j - n]?).getD (buf j) else buf j

/-- Specification: number of positions `i >= 1` of a segment list at which
segment `i` is not adjacent to segment `i - 1`, the sum being the 64-bit sum
of the source. -/
def sg_breaks : List scatterlist → Nat
  | [] => 0
  | [_] => 0
  | a :: b :: rest =>
    (if b.dma_address ≠ u64_add a.dma_address a.dma_length then 1 else 0) +
      sg_breaks (b :: rest)

/-- Specification: number of coalesced ranges of a segment list: `0` for the
empty list, otherwise `1` plus the number of positions that are not adjacent to
their predecessor. -/
def sg_run_count : List scatterlist → Nat
  | [] => 0
  | s :: rest => 1 + sg_breaks (s :: rest)

/-- Specification: number of positions `i >= 1` of a segment list at which the
address of segment `i` is not the address plus the length of segment `i - 1`,
the sum being exact. -/
def sg_breaks_exact : List scatterlist → Nat
  | [] => 0
  | [_] => 0
  | a :: b :: rest =>
    (if b.dma_address ≠ a.dma_address + a.dma_length then 1 else 0) +
      sg_breaks_exact (b :: rest)

/-- Specification: number of maximal runs of adjacent segments, with the exact
adjacency test. -/
def sg_run_count_exact : List scatterlist → Nat
  | [] => 0
  | s :: rest => 1 + sg_breaks_exact (s :: rest)

/-- The bytes taken off the last range by `ntc_compress_sgl`:
`(PAGE_SIZE - ((offset + length) & ~PAGE_MASK)) & ~PAGE_MASK`. -/
def ntc_compress_sgl_tail (PAGE_SIZE offset length : Nat) : Nat :=
  (u64_sub PAGE_SIZE ((u64_add offset length) &&& u64_not (PAGE_MASK PAGE_SIZE))) &&&
    u64_not (PAGE_MASK PAGE_SIZE)

/-- Specification: two segments are adjacent when the address of the second is
the address of the first plus the length of the first. -/
def sg_adjacent (a b : scatterlist) : Prop :=
  b.dma_address = a.dma_address + a.dma_length

/-- Specification: the range that stands for a run of segments: the address of
the first segment of the run and the sum of the lengths of its segments. -/
def sg_run_range (run : List scatterlist) : ntc_sge :=
  { addr := match run with
      | [] => 0
      | s :: _ => s.dma_address
    len := (run.map scatterlist.dma_length).sum }

/-! ## Auxiliary facts on the machine arithmetic -/

/-- The `int` detour of the contiguous counts is subtraction modulo `2 ^ 32`. -/
theorem u32_of_int_s32_sub (a b : Nat) (ha : a < 4294967296) (hb : b < 4294967296) :
    u32_of_int (s32_sub (s32_of_u32 a) (s32_of_u32 b)) = u32_sub a b := by
  unfold u32_of_int s32_sub s32_of_u32 u32_of_int u32_sub
  split_ifs <;> omega

/-- Unfolding of `ntrdma_ring_valid` into its three tests. -/
theorem ntrdma_ring_valid_iff (prod cons cap : Nat) :
    ntrdma_ring_valid prod cons cap = true ↔
      prod < u32_shl1 cap ∧ cons < u32_shl1 cap ∧ ntrdma_ring_count prod cons cap ≤ cap := by
  unfold ntrdma_ring_valid
  split_ifs with h1 h2
  · simp; omega
  · simp; omega
  · simp; omega

/-- When `2 * cap` fits in 32 bits, `cap << 1` is `2 * cap`. -/
theorem u32_shl1_eq (cap : Nat) (h2 : 2 * cap < 4294967296) : u32_shl1 cap = 2 * cap := by
  unfold u32_shl1; omega

/-- Forward distance from `cons` to `prod` in the doubled index space, by cases. -/
theorem forward_distance_eq (prod cons cap : Nat) (hp : prod < 2 * cap) (hc : cons < 2 * cap) :
    (prod + 2 * cap - cons) % (2 * cap) = if prod < cons then prod + 2 * cap - cons else prod - cons := by
  split_ifs with h
  · exact Nat.mod_eq_of_lt (by omega)
  · have e : prod + 2 * cap - cons = (prod - cons) + 2 * cap := by omega
    rw [e, Nat.add_mod_right]
    exact Nat.mod_eq_of_lt (by omega)

/-- Closed form of `ntrdma_ring_count` on the doubled index space. -/
theorem ntrdma_ring_count_eq (prod cons cap : Nat) (h2 : 2 * cap < 4294967296)
    (hp : prod < 2 * cap) (hc : cons < 2 * cap) :
    ntrdma_ring_count prod cons cap =
      if prod < cons then prod + 2 * cap - cons else prod - cons := by
  simp only [ntrdma_ring_count, u32_add, u32_sub, u32_shl1]
  split_ifs <;> omega

/-- Closed form of `ntrdma_ring_space` when the occupancy is at most `cap`. -/
theorem ntrdma_ring_space_eq (prod cons cap : Nat) (h2 : 2 * cap < 4294967296)
    (hp : prod < 2 * cap) (hc : cons < 2 * cap)
    (hv : ntrdma_ring_count prod cons cap ≤ cap) :
    ntrdma_ring_space prod cons cap =
      if prod < cons then cons - cap - prod else cap + cons - prod := by
  rw [ntrdma_ring_count_eq prod cons cap h2 hp hc] at hv
  simp only [ntrdma_ring_space, u32_add, u32_sub, u32_shl1]
  split_ifs at hv ⊢ <;> omega

/-- A valid ring with `2 * cap` representable: both counters are below `2 * cap`
and the forward distance, in closed form, is at most `cap`. -/
theorem ntrdma_ring_valid_bounds (prod cons cap : Nat) (h2 : 2 * cap < 4294967296)
    (hv : ntrdma_ring_valid prod cons cap = true) :
    prod < 2 * cap ∧ cons < 2 * cap ∧
      (if prod < cons then prod + 2 * cap - cons else prod - cons) ≤ cap := by
  rw [ntrdma_ring_valid_iff, u32_shl1_eq cap h2] at hv
  obtain ⟨hp, hc, hv⟩ := hv
  rw [ntrdma_ring_count_eq prod cons cap h2 hp hc] at hv
  exact ⟨hp, hc, hv⟩

/-- Outputs of `ntrdma_ring_produce` without modular reductions. -/
theorem ntrdma_ring_produce_eq (prod cons cap : Nat) (h2 : 2 * cap < 4294967296)
    (hp : prod < 2 * cap) (hc : cons < 2 * cap) :
    ntrdma_ring_produce prod cons cap =
      if prod < cap then
        { base := 0, prod_idx := prod, prod_end := if cons < cap then cap else cons - cap }
      else
        { base := cap, prod_idx := prod - cap, prod_end := if cons < cap then cons else cap } := by
  have e1 : u32_sub cons cap = if cons < cap then u32_sub cons cap else cons - cap := by
    unfold u32_sub; split_ifs <;> omega
  have e2 : u32_sub prod cap = if prod < cap then u32_sub prod cap else prod - cap := by
    unfold u32_sub; split_ifs <;> omega
  unfold ntrdma_ring_produce
  split_ifs with h1 h3 h3
  · rfl
  · rw [e1, if_neg h3]
  · rw [e2, if_neg h1]
  · rw [e2, if_neg h1]

/-- Closed form of `ntrdma_ring_space_ctg` on a valid ring. -/
theorem ntrdma_ring_space_ctg_eq (prod cons cap : Nat) (h2 : 2 * cap < 4294967296)
    (hv : ntrdma_ring_valid prod cons cap = true) :
    (ntrdma_ring_produce prod cons cap).prod_idx ≤ (ntrdma_ring_produce prod cons cap).prod_end ∧
    (ntrdma_ring_produce prod cons cap).prod_end ≤ cap ∧
    ntrdma_ring_space_ctg prod cons cap =
      (ntrdma_ring_produce prod cons cap).prod_end - (ntrdma_ring_produce prod cons cap).prod_idx := by
  obtain ⟨hp, hc, hb⟩ := ntrdma_ring_valid_bounds prod cons cap h2 hv
  unfold ntrdma_ring_space_ctg
  simp only []
  rw [ntrdma_ring_produce_eq prod cons cap h2 hp hc]
  split_ifs at hb ⊢ <;> simp only [] <;>
    (refine ⟨by omega, by omega, ?_⟩
     rw [u32_of_int_s32_sub _ _ (by omega) (by omega)]
     unfold u32_sub
     omega)

/-- Outputs of `ntrdma_ring_consume` without modular reductions. -/
theorem ntrdma_ring_consume_eq (prod cons cap : Nat) (h2 : 2 * cap < 4294967296)
    (hp : prod < 2 * cap) (hc : cons < 2 * cap) :
    ntrdma_ring_consume prod cons cap =
      if cons < cap then
        { base := 0, cons_idx := cons, cons_end := if prod < cap then prod else cap }
      else
        { base := cap, cons_idx := cons - cap, cons_end := if prod < cap then cap else prod - cap } := by
  have e1 : u32_sub cons cap = if cons < cap then u32_sub cons cap else cons - cap := by
    unfold u32_sub; split_ifs <;> omega
  have e2 : u32_sub prod cap = if prod < cap then u32_sub prod cap else prod - cap := by
    unfold u32_sub; split_ifs <;> omega
  unfold ntrdma_ring_consume
  split_ifs with h1 h3 h3
  · rfl
  · rfl
  · rw [e1, if_neg h1]
  · rw [e1, if_neg h1, e2, if_neg h3]

/-- Closed form of `ntrdma_ring_count_ctg` on a valid ring. -/
theorem ntrdma_ring_count_ctg_eq (prod cons cap : Nat) (h2 : 2 * cap < 4294967296)
    (hv : ntrdma_ring_valid prod cons cap = true) :
    (ntrdma_ring_consume prod cons cap).cons_idx ≤ (ntrdma_ring_consume prod cons cap).cons_end ∧
    (ntrdma_ring_consume prod cons cap).cons_end ≤ cap ∧
    ntrdma_ring_count_ctg prod cons cap =
      (ntrdma_ring_consume prod cons cap).cons_end - (ntrdma_ring_consume prod cons cap).cons_idx := by
  obtain ⟨hp, hc, hb⟩ := ntrdma_ring_valid_bounds prod cons cap h2 hv
  unfold ntrdma_ring_count_ctg
  simp only []
  rw [ntrdma_ring_consume_eq prod cons cap h2 hp hc]
  split_ifs at hb ⊢ <;> simp only [] <;>
    (refine ⟨by omega, by omega, ?_⟩
     rw [u32_of_int_s32_sub _ _ (by omega) (by omega)]
     unfold u32_sub
     omega)

/-- The index `cap` ahead of `cons` in the doubled index space, by cases. -/
theorem full_index_eq (cons cap : Nat) (hc : cons < 2 * cap) :
    (cons + cap) % (2 * cap) = if cons < cap then cons + cap else cons - cap := by
  split_ifs with h
  · exact Nat.mod_eq_of_lt (by omega)
  · have e : cons + cap = (cons - cap) + 2 * cap := by omega
    rw [e, Nat.add_mod_right]
    exact Nat.mod_eq_of_lt (by omega)

/-- Closed form of `ntrdma_ring_update` on the indices of a range. -/
theorem ntrdma_ring_update_eq (idx base cap : Nat) (h2 : 2 * cap < 4294967296)
    (hbase : base = 0 ∨ base = cap) (hi : idx ≤ cap) :
    ntrdma_ring_update idx base cap = if idx = cap then cap - base else base + idx := by
  unfold ntrdma_ring_update u32_sub u32_add
  split_ifs <;> omega

/-! ## Properties -/

/-- C1: for `cap > 0` with `2 * cap` representable in 32 bits and `prod`, `cons` in
`[0, 2 * cap)` forming a valid ring, `ntrdma_ring_count + ntrdma_ring_space = cap`
as natural numbers, and each term is the exact integer value of the source
expression (`p - cons` and `cap + cons - p`, where `p` is `prod + 2 * cap` when
`prod < cons` and `prod` otherwise), unaffected by the reduction modulo `2 ^ 32`. -/
theorem ntrdma_ring_count_add_space (prod cons cap : Nat) (_hcap : 0 < cap)
    (h2 : 2 * cap < 4294967296) (hp : prod < 2 * cap) (hc : cons < 2 * cap)
    (hv : ntrdma_ring_valid prod cons cap = true) :
    ntrdma_ring_count prod cons cap + ntrdma_ring_space prod cons cap = cap ∧
    (ntrdma_ring_count prod cons cap : Int) =
      (if prod < cons then (prod : Int) + 2 * (cap : Int) else (prod : Int)) - (cons : Int) ∧
    (ntrdma_ring_space prod cons cap : Int) =
      (cap : Int) + (cons : Int) -
        (if prod < cons then (prod : Int) + 2 * (cap : Int) else (prod : Int)) := by
  have hcnt := ((ntrdma_ring_valid_iff prod cons cap).1 hv).2.2
  have hb := (ntrdma_ring_valid_bounds prod cons cap h2 hv).2.2
  rw [ntrdma_ring_space_eq prod cons cap h2 hp hc hcnt,
    ntrdma_ring_count_eq prod cons cap h2 hp hc]
  split_ifs at hb ⊢ <;> omega

/-- Witness of C1 on the ring `cap = 4`, `prod = 1`, `cons = 6` (three entries,
the producer already wrapped to the first half). -/
theorem ntrdma_ring_count_add_space_witness :
    (0 < 4 ∧ 2 * 4 < 4294967296 ∧ 1 < 2 * 4 ∧ 6 < 2 * 4 ∧
      ntrdma_ring_valid 1 6 4 = true) ∧
    ntrdma_ring_count 1 6 4 + ntrdma_ring_space 1 6 4 = 4 :=
  ⟨by decide,
    (ntrdma_ring_count_add_space 1 6 4 (by decide) (by decide) (by decide) (by decide)
      (by decide)).1⟩

/-- C2 (amended): produce round trip.  For a valid ring with `2 * cap`
representable in 32 bits, advancing `prod` by `n <= ntrdma_ring_space_ctg` through
`ntrdma_ring_update (prod_idx + n) base cap` adds `n` to `ntrdma_ring_count` and
keeps the ring valid. -/
theorem ntrdma_ring_produce_round_trip (prod cons cap n : Nat) (h2 : 2 * cap < 4294967296)
    (hv : ntrdma_ring_valid prod cons cap = true)
    (hn : n ≤ ntrdma_ring_space_ctg prod cons cap) :
    ntrdma_ring_count
        (ntrdma_ring_update ((ntrdma_ring_produce prod cons cap).prod_idx + n)
          (ntrdma_ring_produce prod cons cap).base cap) cons cap =
      ntrdma_ring_count prod cons cap + n ∧
    ntrdma_ring_valid
        (ntrdma_ring_update ((ntrdma_ring_produce prod cons cap).prod_idx + n)
          (ntrdma_ring_produce prod cons cap).base cap) cons cap = true := by
  obtain ⟨hp, hc, hb⟩ := ntrdma_ring_valid_bounds prod cons cap h2 hv
  obtain ⟨-, -, hs⟩ := ntrdma_ring_space_ctg_eq prod cons cap h2 hv
  rw [hs] at hn
  rw [ntrdma_ring_produce_eq prod cons cap h2 hp hc] at hn ⊢
  rw [ntrdma_ring_valid_iff, u32_shl1_eq cap h2]
  rw [ntrdma_ring_count_eq prod cons cap h2 hp hc]
  split_ifs at hb hn ⊢ <;> simp only [] at hn ⊢ <;>
    (rw [ntrdma_ring_update_eq _ _ cap h2 (by omega) (by omega)]
     split_ifs <;>
      (rw [ntrdma_ring_count_eq _ cons cap h2 (by omega) hc]
       split_ifs <;> omega))

/-- Witness of C2 (amended): `cap = 4`, `prod = 6`, `cons = 3`, batch of `n = 1`. -/
theorem ntrdma_ring_produce_round_trip_witness :
    (2 * 4 < 4294967296 ∧ ntrdma_ring_valid 6 3 4 = true ∧
      1 ≤ ntrdma_ring_space_ctg 6 3 4) ∧
    ntrdma_ring_count
        (ntrdma_ring_update ((ntrdma_ring_produce 6 3 4).prod_idx + 1)
          (ntrdma_ring_produce 6 3 4).base 4) 3 4 =
      ntrdma_ring_count 6 3 4 + 1 ∧
    ntrdma_ring_valid
        (ntrdma_ring_update ((ntrdma_ring_produce 6 3 4).prod_idx + 1)
          (ntrdma_ring_produce 6 3 4).base 4) 3 4 = true :=
  ⟨by decide, ntrdma_ring_produce_round_trip 6 3 4 1 (by decide) (by decide) (by decide)⟩

/-- Counterexample to C2 as stated: with `cap = 2 ^ 31 + 1` the shift `cap << 1`
wraps to `2`; the ring `prod = 0`, `cons = 0` is valid with `2 ^ 31 + 1`
contiguous free entries, yet after a batch of `n = 2` the new `prod = 2` is
rejected by `ntrdma_ring_valid`. -/
theorem ntrdma_ring_produce_round_trip_fails_large_cap :
    ntrdma_ring_valid 0 0 2147483649 = true ∧
    2 ≤ ntrdma_ring_space_ctg 0 0 2147483649 ∧
    ntrdma_ring_valid
      (ntrdma_ring_update ((ntrdma_ring_produce 0 0 2147483649).prod_idx + 2)
        (ntrdma_ring_produce 0 0 2147483649).base 2147483649) 0 2147483649 = false := by
  decide

/-- C3: for `cap > 0` with `2 * cap` representable in 32 bits and `u32` values
`prod`, `cons`, `ntrdma_ring_valid` holds exactly when `prod < 2 * cap`,
`cons < 2 * cap` and the forward distance `(prod + 2 * cap - cons) mod (2 * cap)`
is at most `cap`; in particular it is false for `prod = 2 * cap`. -/
theorem ntrdma_ring_valid_iff_forward_distance (prod cons cap : Nat) (_hcap : 0 < cap)
    (h2 : 2 * cap < 4294967296) (_hp : prod < 4294967296) (_hc : cons < 4294967296) :
    (ntrdma_ring_valid prod cons cap = true ↔
      prod < 2 * cap ∧ cons < 2 * cap ∧ (prod + 2 * cap - cons) % (2 * cap) ≤ cap) ∧
    ntrdma_ring_valid (2 * cap) cons cap = false := by
  constructor
  · rw [ntrdma_ring_valid_iff, u32_shl1_eq cap h2]
    constructor
    · rintro ⟨hp1, hc1, hcnt⟩
      rw [ntrdma_ring_count_eq prod cons cap h2 hp1 hc1] at hcnt
      rw [forward_distance_eq prod cons cap hp1 hc1]
      exact ⟨hp1, hc1, hcnt⟩
    · rintro ⟨hp1, hc1, hcnt⟩
      rw [forward_distance_eq prod cons cap hp1 hc1] at hcnt
      rw [ntrdma_ring_count_eq prod cons cap h2 hp1 hc1]
      exact ⟨hp1, hc1, hcnt⟩
  · unfold ntrdma_ring_valid
    rw [u32_shl1_eq cap h2]
    simp

/-- Witness of C3: `cap = 4`, `prod = 7`, `cons = 2` has forward distance `5 > 4`,
so the ring is invalid, and `prod = 8 = 2 * cap` is rejected. -/
theorem ntrdma_ring_valid_iff_forward_distance_witness :
    (0 < 4 ∧ 2 * 4 < 4294967296 ∧ 7 < 4294967296 ∧ 2 < 4294967296) ∧
    (ntrdma_ring_valid 7 2 4 = true ↔
      7 < 2 * 4 ∧ 2 < 2 * 4 ∧ (7 + 2 * 4 - 2) % (2 * 4) ≤ 4) ∧
    ntrdma_ring_valid (2 * 4) 2 4 = false :=
  ⟨by decide,
    ntrdma_ring_valid_iff_forward_distance 7 2 4 (by decide) (by decide) (by decide)
      (by decide)⟩

/-- C4: for `cap > 0` with `2 * cap` representable in 32 bits and `prod`, `cons` in
`[0, 2 * cap)`, `ntrdma_ring_count` is the forward distance
`(prod + 2 * cap - cons) mod (2 * cap)`: `prod - cons` when `prod >= cons` and
`prod + 2 * cap - cons` when `prod < cons`. -/
theorem ntrdma_ring_count_forward_distance (prod cons cap : Nat) (_hcap : 0 < cap)
    (h2 : 2 * cap < 4294967296) (hp : prod < 2 * cap) (hc : cons < 2 * cap) :
    ntrdma_ring_count prod cons cap = (prod + 2 * cap - cons) % (2 * cap) ∧
    (cons ≤ prod → ntrdma_ring_count prod cons cap = prod - cons) ∧
    (prod < cons → ntrdma_ring_count prod cons cap = prod + 2 * cap - cons) := by
  rw [forward_distance_eq prod cons cap hp hc, ntrdma_ring_count_eq prod cons cap h2 hp hc]
  refine ⟨rfl, ?_, ?_⟩
  · intro h; rw [if_neg (by omega)]
  · intro h; rw [if_pos h]

/-- Witness of C4: `cap = 4`, `prod = 1`, `cons = 6`, distance `1 + 8 - 6 = 3`. -/
theorem ntrdma_ring_count_forward_distance_witness :
    (0 < 4 ∧ 2 * 4 < 4294967296 ∧ 1 < 2 * 4 ∧ 6 < 2 * 4 ∧ 1 < 6) ∧
    ntrdma_ring_count 1 6 4 = 1 + 2 * 4 - 6 :=
  ⟨by decide,
    (ntrdma_ring_count_forward_distance 1 6 4 (by decide) (by decide) (by decide)
      (by decide)).2.2 (by decide)⟩

/-- C5: empty and full are told apart without a flag.  On every valid ring of
`u32` values, `ntrdma_ring_count = 0` iff `prod = cons`; `ntrdma_ring_space = 0`
iff `prod = (cons + cap) mod (2 * cap)`, iff `ntrdma_ring_count = cap`; `cap` is
positive and the two conditions never hold together. -/
theorem ntrdma_ring_empty_full (prod cons cap : Nat) (hp : prod < 4294967296)
    (hc : cons < 4294967296) (hk : cap < 4294967296)
    (hv : ntrdma_ring_valid prod cons cap = true) :
    (ntrdma_ring_count prod cons cap = 0 ↔ prod = cons) ∧
    (ntrdma_ring_space prod cons cap = 0 ↔ prod = (cons + cap) % (2 * cap)) ∧
    (ntrdma_ring_space prod cons cap = 0 ↔ ntrdma_ring_count prod cons cap = cap) ∧
    0 < cap ∧
    ¬ (prod = cons ∧ prod = (cons + cap) % (2 * cap)) ∧
    ¬ (ntrdma_ring_count prod cons cap = 0 ∧ ntrdma_ring_space prod cons cap = 0) := by
  rw [ntrdma_ring_valid_iff] at hv
  obtain ⟨hp1, hc1, hcnt⟩ := hv
  have hcap : 0 < cap := by unfold u32_shl1 at hp1; omega
  have hc2 : cons < 2 * cap := by unfold u32_shl1 at hc1; omega
  rw [full_index_eq cons cap hc2]
  simp only [ntrdma_ring_count, ntrdma_ring_space, u32_add, u32_sub, u32_shl1] at hp1 hc1 hcnt ⊢
  split_ifs at hcnt ⊢ <;> omega

/-- Witness of C5: the full ring `cap = 4`, `prod = 2`, `cons = 6`. -/
theorem ntrdma_ring_empty_full_witness :
    (2 < 4294967296 ∧ 6 < 4294967296 ∧ 4 < 4294967296 ∧
      ntrdma_ring_valid 2 6 4 = true) ∧
    (ntrdma_ring_space 2 6 4 = 0 ↔ 2 = (6 + 4) % (2 * 4)) :=
  ⟨by decide,
    (ntrdma_ring_empty_full 2 6 4 (by decide) (by decide) (by decide) (by decide)).2.1⟩

/-- C6 (amended): on a valid ring with `2 * cap` representable in 32 bits, the
contiguous counts never exceed the total counts:
`ntrdma_ring_count_ctg <= ntrdma_ring_count` and
`ntrdma_ring_space_ctg <= ntrdma_ring_space`. -/
theorem ntrdma_ring_ctg_le (prod cons cap : Nat) (h2 : 2 * cap < 4294967296)
    (hv : ntrdma_ring_valid prod cons cap = true) :
    ntrdma_ring_count_ctg prod cons cap ≤ ntrdma_ring_count prod cons cap ∧
    ntrdma_ring_space_ctg prod cons cap ≤ ntrdma_ring_space prod cons cap := by
  obtain ⟨hp, hc, hb⟩ := ntrdma_ring_valid_bounds prod cons cap h2 hv
  have hcnt := ((ntrdma_ring_valid_iff prod cons cap).1 hv).2.2
  rw [(ntrdma_ring_count_ctg_eq prod cons cap h2 hv).2.2,
    (ntrdma_ring_space_ctg_eq prod cons cap h2 hv).2.2,
    ntrdma_ring_consume_eq prod cons cap h2 hp hc,
    ntrdma_ring_produce_eq prod cons cap h2 hp hc,
    ntrdma_ring_space_eq prod cons cap h2 hp hc hcnt,
    ntrdma_ring_count_eq prod cons cap h2 hp hc]
  split_ifs at hb ⊢ <;> simp only [] <;> omega

/-- Witness of C6 (amended): `cap = 4`, `prod = 1`, `cons = 6`; two of the three
entries and one of the single free entry are contiguous. -/
theorem ntrdma_ring_ctg_le_witness :
    (2 * 4 < 4294967296 ∧ ntrdma_ring_valid 1 6 4 = true) ∧
    ntrdma_ring_count_ctg 1 6 4 ≤ ntrdma_ring_count 1 6 4 ∧
    ntrdma_ring_space_ctg 1 6 4 ≤ ntrdma_ring_space 1 6 4 :=
  ⟨by decide, ntrdma_ring_ctg_le 1 6 4 (by decide) (by decide)⟩

/-- Counterexample to C6 as stated: with `cap = 2 ^ 31 + 2` the shift `cap << 1`
wraps to `4`, so `prod = 0`, `cons = 1` passes `ntrdma_ring_valid` (count `3`),
while `ntrdma_ring_count_ctg` is `0 - 1` modulo `2 ^ 32` and
`ntrdma_ring_space_ctg = cap` exceeds `ntrdma_ring_space = cap - 3`. -/
theorem ntrdma_ring_ctg_le_fails_large_cap :
    ntrdma_ring_valid 0 1 2147483650 = true ∧
    ntrdma_ring_count 0 1 2147483650 = 3 ∧
    ntrdma_ring_count_ctg 0 1 2147483650 = 4294967295 ∧
    ntrdma_ring_space 0 1 2147483650 = 2147483647 ∧
    ntrdma_ring_space_ctg 0 1 2147483650 = 2147483650 ∧
    ¬ (ntrdma_ring_count_ctg 0 1 2147483650 ≤ ntrdma_ring_count 0 1 2147483650) ∧
    ¬ (ntrdma_ring_space_ctg 0 1 2147483650 ≤ ntrdma_ring_space 0 1 2147483650) := by
  decide

/-- C7 (amended): on a valid ring with `2 * cap` representable in 32 bits whose
`prod` and `cons` lie in the same half of the doubled index space,
`ntrdma_ring_count_ctg = ntrdma_ring_count`. -/
theorem ntrdma_ring_count_ctg_same_half (prod cons cap : Nat) (h2 : 2 * cap < 4294967296)
    (hv : ntrdma_ring_valid prod cons cap = true)
    (hh : (prod < cap ∧ cons < cap) ∨ (cap ≤ prod ∧ cap ≤ cons)) :
    ntrdma_ring_count_ctg prod cons cap = ntrdma_ring_count prod cons cap := by
  obtain ⟨hp, hc, hb⟩ := ntrdma_ring_valid_bounds prod cons cap h2 hv
  rw [(ntrdma_ring_count_ctg_eq prod cons cap h2 hv).2.2,
    ntrdma_ring_consume_eq prod cons cap h2 hp hc,
    ntrdma_ring_count_eq prod cons cap h2 hp hc]
  split_ifs at hb ⊢ <;> simp only [] <;> omega

/-- Witness of C7 (amended): `cap = 4`, `prod = 7`, `cons = 5`, both in the
second half. -/
theorem ntrdma_ring_count_ctg_same_half_witness :
    (2 * 4 < 4294967296 ∧ ntrdma_ring_valid 7 5 4 = true ∧
      ((7 < 4 ∧ 5 < 4) ∨ (4 ≤ 7 ∧ 4 ≤ 5))) ∧
    ntrdma_ring_count_ctg 7 5 4 = ntrdma_ring_count 7 5 4 :=
  ⟨by decide, ntrdma_ring_count_ctg_same_half 7 5 4 (by decide) (by decide) (by decide)⟩

/-- Counterexample to C7 as stated: with `cap = 2 ^ 31 + 3` the shift `cap << 1`
wraps to `6`, so `prod = 1`, `cons = 2` passes `ntrdma_ring_valid` (count `5`)
with both counters in the first half, while `ntrdma_ring_count_ctg` is `1 - 2`
modulo `2 ^ 32`. -/
theorem ntrdma_ring_count_ctg_same_half_fails_large_cap :
    ntrdma_ring_valid 1 2 2147483651 = true ∧
    (1 < 2147483651 ∧ 2 < 2147483651) ∧
    ntrdma_ring_count 1 2 2147483651 = 5 ∧
    ntrdma_ring_count_ctg 1 2 2147483651 = 4294967295 := by
  decide

/-- C8 (amended): on a valid ring with `2 * cap` representable in 32 bits, when
`prod` and `cons` lie in the same half of the doubled index space,
`ntrdma_ring_space_ctg + cons mod cap = ntrdma_ring_space`, so the two counts
agree exactly when `cons` is `0` or `cap`; when `prod` and `cons` lie in
different halves, `ntrdma_ring_space_ctg = ntrdma_ring_space`. -/
theorem ntrdma_ring_space_ctg_halves (prod cons cap : Nat) (h2 : 2 * cap < 4294967296)
    (hv : ntrdma_ring_valid prod cons cap = true) :
    (((prod < cap ∧ cons < cap) ∨ (cap ≤ prod ∧ cap ≤ cons)) →
      ntrdma_ring_space_ctg prod cons cap + cons % cap = ntrdma_ring_space prod cons cap ∧
      (ntrdma_ring_space_ctg prod cons cap = ntrdma_ring_space prod cons cap ↔
        cons = 0 ∨ cons = cap)) ∧
    (((prod < cap ∧ cap ≤ cons) ∨ (cap ≤ prod ∧ cons < cap)) →
      ntrdma_ring_space_ctg prod cons cap = ntrdma_ring_space prod cons cap) := by
  obtain ⟨hp, hc, hb⟩ := ntrdma_ring_valid_bounds prod cons cap h2 hv
  have hcnt := ((ntrdma_ring_valid_iff prod cons cap).1 hv).2.2
  have hm : cons % cap = if cons < cap then cons else cons - cap := by
    split_ifs with h
    · exact Nat.mod_eq_of_lt h
    · rw [Nat.mod_eq_sub_mod (by omega)]
      exact Nat.mod_eq_of_lt (by omega)
  rw [(ntrdma_ring_space_ctg_eq prod cons cap h2 hv).2.2,
    ntrdma_ring_produce_eq prod cons cap h2 hp hc,
    ntrdma_ring_space_eq prod cons cap h2 hp hc hcnt, hm]
  refine ⟨fun hh => ⟨?_, ?_⟩, fun hh => ?_⟩ <;>
    split_ifs at hb ⊢ <;> simp only [] <;> omega

/-- Witness of C8 (amended): `cap = 4`; the same-half ring `prod = 2`, `cons = 1`
has `2 + 1 = 3` free entries, the ring `prod = 6`, `cons = 3` in different halves
has one free entry, contiguous. -/
theorem ntrdma_ring_space_ctg_halves_witness :
    (2 * 4 < 4294967296 ∧ ntrdma_ring_valid 2 1 4 = true ∧
      ntrdma_ring_valid 6 3 4 = true) ∧
    ntrdma_ring_space_ctg 2 1 4 + 1 % 4 = ntrdma_ring_space 2 1 4 ∧
    ntrdma_ring_space_ctg 6 3 4 = ntrdma_ring_space 6 3 4 :=
  ⟨by decide,
    ((ntrdma_ring_space_ctg_halves 2 1 4 (by decide) (by decide)).1 (by decide)).1,
    (ntrdma_ring_space_ctg_halves 6 3 4 (by decide) (by decide)).2 (by decide)⟩

/-- Counterexample to C8 as stated: on the valid ring `cap = 4`, `prod = 2`,
`cons = 1`, both counters are in the first half, three entries are free
(slots 2, 3 and 0) but only two of them (slots 2 and 3) are contiguous. -/
theorem ntrdma_ring_space_ctg_same_half_fails :
    ntrdma_ring_valid 2 1 4 = true ∧ (2 < 4 ∧ 1 < 4) ∧
    ntrdma_ring_space_ctg 2 1 4 = 2 ∧ ntrdma_ring_space 2 1 4 = 3 ∧
    ntrdma_ring_space_ctg 2 1 4 ≠ ntrdma_ring_space 2 1 4 := by
  decide

/-- C9: `ntrdma_ring_update idx base cap` is `cap - base` when `idx = cap` and
`base + idx` otherwise (in `u32` arithmetic); for `cap > 0` with `2 * cap`
representable in 32 bits, `base` equal to `0` or `cap` and `idx <= cap`, neither
operation wraps, the result is below `2 * cap` and congruent to `base + idx`
modulo `2 * cap`. -/
theorem ntrdma_ring_update_spec (idx base cap : Nat) (_hi : idx < 4294967296)
    (_hb : base < 4294967296) (_hk : cap < 4294967296) :
    ntrdma_ring_update idx base cap =
      (if idx = cap then (cap + 4294967296 - base) % 4294967296
        else (base + idx) % 4294967296) ∧
    (0 < cap → 2 * cap < 4294967296 → (base = 0 ∨ base = cap) → idx ≤ cap →
      ntrdma_ring_update idx base cap = (if idx = cap then cap - base else base + idx) ∧
      ntrdma_ring_update idx base cap < 2 * cap ∧
      ntrdma_ring_update idx base cap % (2 * cap) = (base + idx) % (2 * cap)) := by
  refine ⟨rfl, ?_⟩
  intro hcap h2 hbase hi
  have hu := ntrdma_ring_update_eq idx base cap h2 hbase hi
  refine ⟨hu, by rw [hu]; split_ifs <;> omega, ?_⟩
  rw [hu]
  split_ifs with h
  · rcases hbase with hb0 | hbc
    · rw [hb0, h, Nat.sub_zero, Nat.zero_add]
    · rw [hbc, h, Nat.sub_self, ← two_mul, Nat.mod_self, Nat.zero_mod]
  · rfl

/-- Witness of C9: `cap = 4`, `base = 4`, `idx = 4` wraps the counter to `0`,
which is congruent to `8` modulo `8`. -/
theorem ntrdma_ring_update_spec_witness :
    (4 < 4294967296 ∧ 0 < 4 ∧ 2 * 4 < 4294967296 ∧ ((4 : Nat) = 0 ∨ (4 : Nat) = 4) ∧
      4 ≤ 4) ∧
    ntrdma_ring_update 4 4 4 = (if (4 : Nat) = 4 then 4 - 4 else 4 + 4) ∧
    ntrdma_ring_update 4 4 4 < 2 * 4 ∧
    ntrdma_ring_update 4 4 4 % (2 * 4) = (4 + 4) % (2 * 4) :=
  ⟨by decide,
    (ntrdma_ring_update_spec 4 4 4 (by decide) (by decide) (by decide)).2 (by decide)
      (by decide) (by decide) (by decide)⟩

/-- C10: the ring of capacity 4.  Empty at `prod = 0`, `cons = 0`: count `0`,
space `4`, produce range `base = 0`, `prod_idx = 0`, `prod_end = 4`; producing
four entries gives `ntrdma_ring_update 4 0 4 = 4`; full at `prod = 4`,
`cons = 0`: count `4`, space `0`, produce range `base = 4`, `prod_idx = 0`,
`prod_end = 0`. -/
theorem ntrdma_ring_example_cap4 :
    ntrdma_ring_count 0 0 4 = 0 ∧ ntrdma_ring_space 0 0 4 = 4 ∧
    (ntrdma_ring_produce 0 0 4).base = 0 ∧
    (ntrdma_ring_produce 0 0 4).prod_idx = 0 ∧
    (ntrdma_ring_produce 0 0 4).prod_end = 4 ∧
    ntrdma_ring_update 4 0 4 = 4 ∧
    ntrdma_ring_count 4 0 4 = 4 ∧ ntrdma_ring_space 4 0 4 = 0 ∧
    (ntrdma_ring_produce 4 0 4).base = 4 ∧
    (ntrdma_ring_produce 4 0 4).prod_idx = 0 ∧
    (ntrdma_ring_produce 4 0 4).prod_end = 0 := by
  decide

/-! ## Auxiliary facts on `ntc_compress_sgl` -/

/-- The inner loop leaves at most the entries it was given. -/
theorem ntc_compress_sgl_merge_length (a : Nat) (rest : List scatterlist) (l : Nat) :
    (ntc_compress_sgl_merge a l rest).2.length ≤ rest.length := by
  induction rest generalizing l with
  | nil => simp [ntc_compress_sgl_merge]
  | cons next rest ih =>
    unfold ntc_compress_sgl_merge
    split_ifs with h
    · simp
    · exact Nat.le_succ_of_le (ih _)

/-- The ranges of a list: the range closed by the inner loop, then the ranges of
the entries left. -/
theorem sg_ranges_from_eq_merge (a : Nat) (rest : List scatterlist) (l : Nat) :
    sg_ranges_from a l rest =
      { addr := a, len := (ntc_compress_sgl_merge a l rest).1 } ::
        sg_ranges (ntc_compress_sgl_merge a l rest).2 := by
  induction rest generalizing l with
  | nil => simp [ntc_compress_sgl_merge, sg_ranges_from, sg_ranges]
  | cons next rest ih =>
    unfold ntc_compress_sgl_merge sg_ranges_from
    by_cases h : next.dma_address = u64_add a l
    · rw [if_pos h, if_neg (not_not.mpr h)]
      exact ih _
    · rw [if_neg h, if_pos h]
      simp [sg_ranges]

/-- The outer loop stores the coalesced ranges one after the other. -/
theorem ntc_compress_sgl_walk_eq (count : Int) (nents : Nat) (segs : List scatterlist)
    (st : compress_state) (h : segs.length ≤ nents) :
    ntc_compress_sgl_walk count nents segs st =
      (sg_ranges segs).foldl (ntc_compress_sgl_store count) st := by
  induction nents generalizing segs st with
  | zero =>
    have : segs = [] := List.length_eq_zero.mp (Nat.le_zero.mp h)
    subst this
    simp [ntc_compress_sgl_walk, sg_ranges]
  | succ n ih =>
    cases segs with
    | nil => simp [ntc_compress_sgl_walk, sg_ranges]
    | cons sg rest =>
      have hl := ntc_compress_sgl_merge_length sg.dma_address rest sg.dma_length
      simp only [List.length_cons] at h
      simp only [ntc_compress_sgl_walk, sg_ranges]
      rw [sg_ranges_from_eq_merge, List.foldl_cons]
      exact ih _ _ (by omega)

/-- Storing ranges in a null array only counts them. -/
theorem ntc_compress_sgl_store_foldl_none (count : Int) (rs : List ntc_sge) (n : Nat) :
    rs.foldl (ntc_compress_sgl_store count) { sgl := none, dma_count := n } =
      { sgl := none, dma_count := n + rs.length } := by
  induction rs generalizing n with
  | nil => simp
  | cons r rs ih =>
    rw [List.foldl_cons]
    simp only [ntc_compress_sgl_store]
    rw [ih]
    simp only [List.length_cons]
    congr 1
    omega

/-- Storing ranges in an array fills it up to `count`. -/
theorem ntc_compress_sgl_store_foldl_some (count : Int) (rs : List ntc_sge) (n : Nat)
    (buf : Nat → ntc_sge) :
    rs.foldl (ntc_compress_sgl_store count) { sgl := some buf, dma_count := n } =
      { sgl := some (sgl_fill count rs n buf), dma_count := n + rs.length } := by
  induction rs generalizing n buf with
  | nil =>
    simp only [List.foldl_nil, List.length_nil, Nat.add_zero]
    congr 2
    funext j
    simp [sgl_fill]
  | cons r rs ih =>
    rw [List.foldl_cons]
    simp only [ntc_compress_sgl_store]
    split_ifs with hc
    · rw [ih]
      simp only [List.length_cons]
      congr 1
      · congr 1
        funext j
        simp only [sgl_fill, sgl_set]
        by_cases hj : j = n
        · subst hj
          simp [hc]
        · by_cases hj2 : n + 1 ≤ j
          · have e : j - n = (j - (n + 1)) + 1 := by omega
            have hn : n ≤ j := by omega
            simp only [hj2, hn, true_and, e, List.getElem?_cons_succ, hj, if_false]
          · have hn : ¬ n ≤ j := by omega
            simp [hj2, hn, hj]
      · omega
    · rw [ih]
      simp only [List.length_cons]
      congr 1
      · congr 1
        funext j
        simp only [sgl_fill]
        by_cases hj2 : n + 1 ≤ j
        · have hjc : ¬ (j : Int) < count := by omega
          simp [hjc]
        · by_cases hj : j = n
          · subst hj
            simp [hc]
          · have hn : ¬ n ≤ j := by omega
            simp [hj2, hn]
      · omega

/-- The loop on a null output array only counts the coalesced ranges. -/
theorem ntc_compress_sgl_walk_none (count : Int) (segs : List scatterlist) :
    ntc_compress_sgl_walk count segs.length segs { sgl := none, dma_count := 0 } =
      { sgl := none, dma_count := (sg_ranges segs).length } := by
  rw [ntc_compress_sgl_walk_eq count _ segs _ (Nat.le_refl _),
    ntc_compress_sgl_store_foldl_none, Nat.zero_add]

/-- The output array after the `for_each_sg` loop, before trimming. -/
theorem ntc_compress_sgl_walk_some (count : Int) (segs : List scatterlist)
    (buf : Nat → ntc_sge) :
    ntc_compress_sgl_walk count segs.length segs { sgl := some buf, dma_count := 0 } =
      { sgl := some (sgl_fill count (sg_ranges segs) 0 buf)
        dma_count := (sg_ranges segs).length } := by
  rw [ntc_compress_sgl_walk_eq count _ segs _ (Nat.le_refl _),
    ntc_compress_sgl_store_foldl_some, Nat.zero_add]

/-- Trimming does not change the counter. -/
theorem ntc_compress_sgl_trim_dma_count (PAGE_SIZE offset length : Nat) (count : Int)
    (st : compress_state) :
    (ntc_compress_sgl_trim PAGE_SIZE offset length count st).dma_count = st.dma_count := by
  unfold ntc_compress_sgl_trim
  split
  · rfl
  · split_ifs <;> rfl

/-- Trimming does nothing when no range was found or `count <= 0`. -/
theorem ntc_compress_sgl_trim_skip (PAGE_SIZE offset length : Nat) (count : Int)
    (w : Nat → ntc_sge) (n : Nat) (h : n = 0 ∨ count ≤ 0) :
    ntc_compress_sgl_trim PAGE_SIZE offset length count { sgl := some w, dma_count := n } =
      { sgl := some w, dma_count := n } := by
  unfold ntc_compress_sgl_trim
  simp only []
  rw [if_neg (by omega)]

/-- Trimming on overflow (`count < dma_count`): only the first range is moved. -/
theorem ntc_compress_sgl_trim_first (PAGE_SIZE offset length : Nat) (count : Int)
    (w : Nat → ntc_sge) (n : Nat) (hn : n ≠ 0) (hc : 0 < count) (hlt : ¬ (n : Int) ≤ count) :
    ntc_compress_sgl_trim PAGE_SIZE offset length count { sgl := some w, dma_count := n } =
      { sgl := some (sgl_set w 0
          { addr := u64_add (w 0).addr offset, len := u64_sub (w 0).len offset })
        dma_count := n } := by
  unfold ntc_compress_sgl_trim
  simp only []
  rw [if_pos ⟨hn, hc⟩, if_neg hlt]

/-- Trimming when every range was stored (`dma_count <= count`): the first range
is moved by `offset`, the last one loses the tail, the others are kept. -/
theorem ntc_compress_sgl_trim_full (PAGE_SIZE offset length : Nat) (count : Int)
    (w : Nat → ntc_sge) (n : Nat) (hn : n ≠ 0) (hle : (n : Int) ≤ count) :
    ∃ out,
      ntc_compress_sgl_trim PAGE_SIZE offset length count { sgl := some w, dma_count := n } =
        { sgl := some out, dma_count := n } ∧
      (n = 1 → out 0 =
        { addr := u64_add (w 0).addr offset
          len := u64_sub (u64_sub (w 0).len offset)
            (ntc_compress_sgl_tail PAGE_SIZE offset length) }) ∧
      (n ≠ 1 →
        out 0 = { addr := u64_add (w 0).addr offset, len := u64_sub (w 0).len offset } ∧
        out (n - 1) =
          { addr := (w (n - 1)).addr
            len := u64_sub (w (n - 1)).len
              (ntc_compress_sgl_tail PAGE_SIZE offset length) }) ∧
      (∀ j, j ≠ 0 → j ≠ n - 1 → out j = w j) := by
  have hc : 0 < count := by omega
  unfold ntc_compress_sgl_trim
  simp only []
  rw [if_pos ⟨hn, hc⟩, if_pos hle]
  refine ⟨_, rfl, ?_, ?_, ?_⟩
  · intro h1
    subst h1
    unfold sgl_set ntc_compress_sgl_tail
    rw [if_pos rfl, if_pos rfl]
  · intro h1
    have hm : ¬ 0 = n - 1 := by omega
    have hm2 : ¬ n - 1 = 0 := by omega
    unfold sgl_set ntc_compress_sgl_tail
    rw [if_neg hm, if_pos rfl, if_pos rfl, if_neg hm2]
    exact ⟨rfl, rfl⟩
  · intro j h0 hm
    unfold sgl_set
    rw [if_neg hm, if_neg h0]

/-- The call with a null output array only counts the coalesced ranges. -/
theorem ntc_compress_sgl_none (PAGE_SIZE : Nat) (segs : List scatterlist)
    (offset length : Nat) (count : Int) :
    ntc_compress_sgl PAGE_SIZE segs offset length none count =
      { sgl := none, dma_count := (sg_ranges segs).length } := by
  unfold ntc_compress_sgl
  rw [ntc_compress_sgl_walk_none]
  rfl

/-- The call with an output array: the coalesced ranges are stored up to
`count`, then the array is trimmed. -/
theorem ntc_compress_sgl_some (PAGE_SIZE : Nat) (segs : List scatterlist)
    (offset length : Nat) (buf : Nat → ntc_sge) (count : Int) :
    ntc_compress_sgl PAGE_SIZE segs offset length (some buf) count =
      ntc_compress_sgl_trim PAGE_SIZE offset length count
        { sgl := some (sgl_fill count (sg_ranges segs) 0 buf)
          dma_count := (sg_ranges segs).length } := by
  unfold ntc_compress_sgl
  rw [ntc_compress_sgl_walk_some]

/-- The value returned by `ntc_compress_sgl` is the number of coalesced ranges. -/
theorem ntc_compress_sgl_dma_count (PAGE_SIZE : Nat) (segs : List scatterlist)
    (offset length : Nat) (sgl : Option (Nat → ntc_sge)) (count : Int) :
    (ntc_compress_sgl PAGE_SIZE segs offset length sgl count).dma_count =
      (sg_ranges segs).length := by
  cases sgl with
  | none => rw [ntc_compress_sgl_none]
  | some buf => rw [ntc_compress_sgl_some, ntc_compress_sgl_trim_dma_count]

/-- Number of ranges from an open range whose end is the end of `prev`. -/
theorem sg_ranges_from_length (rest : List scatterlist) (a l : Nat) (prev : scatterlist)
    (h : u64_add a l = u64_add prev.dma_address prev.dma_length) :
    (sg_ranges_from a l rest).length = 1 + sg_breaks (prev :: rest) := by
  induction rest generalizing a l prev with
  | nil => simp [sg_ranges_from, sg_breaks]
  | cons next rest ih =>
    unfold sg_ranges_from sg_breaks
    by_cases hn : next.dma_address = u64_add a l
    · rw [if_pos hn, if_neg (not_not.mpr (h ▸ hn))]
      rw [ih _ _ next (by unfold u64_add at hn ⊢; omega)]
      omega
    · rw [if_neg hn, if_pos (h ▸ hn)]
      rw [List.length_cons, ih _ _ next rfl]
      omega

/-- Number of coalesced ranges of a segment list. -/
theorem sg_ranges_length (segs : List scatterlist) :
    (sg_ranges segs).length = sg_run_count segs := by
  cases segs with
  | nil => rfl
  | cons sg rest =>
    simp only [sg_ranges, sg_run_count]
    exact sg_ranges_from_length rest _ _ sg rfl

/-- Without address wraparound the 64-bit adjacency test is the exact one. -/
theorem sg_breaks_eq_exact (segs : List scatterlist)
    (h : ∀ s ∈ segs, s.dma_address + s.dma_length < 18446744073709551616) :
    sg_breaks segs = sg_breaks_exact segs := by
  induction segs with
  | nil => rfl
  | cons a rest ih =>
    cases rest with
    | nil => rfl
    | cons b rest =>
      have ha := h a (by simp)
      have e : u64_add a.dma_address a.dma_length = a.dma_address + a.dma_length := by
        unfold u64_add; omega
      simp only [sg_breaks, sg_breaks_exact, e]
      rw [ih (fun s hs => h s (List.mem_cons_of_mem _ hs))]

/-- An entry below `count` and below the number of ranges holds its range. -/
theorem sgl_fill_of_lt (count : Int) (rs : List ntc_sge) (buf : Nat → ntc_sge) (j : Nat)
    (hj : j < rs.length) (hc : (j : Int) < count) :
    sgl_fill count rs 0 buf j = rs[j] := by
  unfold sgl_fill
  rw [if_pos ⟨Nat.zero_le _, hc⟩, Nat.sub_zero, List.getElem?_eq_getElem hj]
  rfl

/-- An entry at `count` or above, or past the last range, is left alone. -/
theorem sgl_fill_of_ge (count : Int) (rs : List ntc_sge) (buf : Nat → ntc_sge) (j : Nat)
    (h : count ≤ (j : Int) ∨ rs.length ≤ j) :
    sgl_fill count rs 0 buf j = buf j := by
  unfold sgl_fill
  split_ifs with hc
  · rcases h with h | h
    · omega
    · rw [Nat.sub_zero, List.getElem?_eq_none h]
      rfl
  · rfl

/-- Total length of the ranges from an open range: nothing is lost while the sum
fits in 64 bits. -/
theorem sg_ranges_from_sum (rest : List scatterlist) (a l : Nat)
    (h : l + (rest.map scatterlist.dma_length).sum < 18446744073709551616) :
    ((sg_ranges_from a l rest).map ntc_sge.len).sum =
      l + (rest.map scatterlist.dma_length).sum := by
  induction rest generalizing a l with
  | nil => simp [sg_ranges_from]
  | cons next rest ih =>
    simp only [List.map_cons, List.sum_cons] at h ⊢
    unfold sg_ranges_from
    split_ifs with hn
    · have e : u64_add l next.dma_length = l + next.dma_length := by
        unfold u64_add; omega
      rw [e, ih _ _ (by omega)]
      omega
    · rw [List.map_cons, List.sum_cons, ih _ _ (by omega)]

/-- The first range from an open range `(a, l)` starts at `a` and is at least
`l` long. -/
theorem sg_ranges_from_head (rest : List scatterlist) (a l : Nat)
    (h : l + (rest.map scatterlist.dma_length).sum < 18446744073709551616) :
    ∃ l2 tl, sg_ranges_from a l rest = { addr := a, len := l2 } :: tl ∧ l ≤ l2 := by
  induction rest generalizing l with
  | nil => exact ⟨l, [], rfl, Nat.le_refl _⟩
  | cons next rest ih =>
    simp only [List.map_cons, List.sum_cons] at h
    unfold sg_ranges_from
    split_ifs with hn
    · have e : u64_add l next.dma_length = l + next.dma_length := by
        unfold u64_add; omega
      rw [e]
      obtain ⟨l2, tl, e2, hl⟩ := ih (l + next.dma_length) (by omega)
      exact ⟨l2, tl, e2, by omega⟩
    · exact ⟨l, _, rfl, Nat.le_refl _⟩

/-- The last range from an open range ends, in 64-bit arithmetic, where the last
segment ends, and is at least as long as the last segment. -/
theorem sg_ranges_from_last (rest : List scatterlist) (a l : Nat) (prev : scatterlist)
    (hinv : u64_add a l = u64_add prev.dma_address prev.dma_length)
    (hpl : prev.dma_length ≤ l)
    (h : l + (rest.map scatterlist.dma_length).sum < 18446744073709551616) :
    ∃ r, (sg_ranges_from a l rest).getLast? = some r ∧
      u64_add r.addr r.len =
        u64_add ((prev :: rest).getLast (List.cons_ne_nil _ _)).dma_address
          ((prev :: rest).getLast (List.cons_ne_nil _ _)).dma_length ∧
      ((prev :: rest).getLast (List.cons_ne_nil _ _)).dma_length ≤ r.len := by
  induction rest generalizing a l prev with
  | nil => exact ⟨{ addr := a, len := l }, rfl, hinv, hpl⟩
  | cons next rest ih =>
    simp only [List.map_cons, List.sum_cons] at h
    rw [List.getLast_cons_cons]
    unfold sg_ranges_from
    split_ifs with hn
    · have e : u64_add l next.dma_length = l + next.dma_length := by
        unfold u64_add; omega
      rw [e]
      exact ih a (l + next.dma_length) next (by unfold u64_add at hn ⊢; omega) (by omega)
        (by omega)
    · obtain ⟨r, hr, h1, h2⟩ :=
        ih next.dma_address next.dma_length next rfl (Nat.le_refl _) (by omega)
      obtain ⟨l2, tl, e2, -⟩ := sg_ranges_from_head rest next.dma_address next.dma_length
        (by omega)
      refine ⟨r, ?_, h1, h2⟩
      rw [e2] at hr ⊢
      rw [List.getLast?_cons_cons]
      exact hr

/-- Without address wraparound, consecutive ranges are not adjacent and no range
end wraps. -/
theorem sg_ranges_from_chain (rest : List scatterlist) (a l : Nat)
    (hal : a + l < 18446744073709551616)
    (h : ∀ s ∈ rest, s.dma_address + s.dma_length < 18446744073709551616) :
    List.Chain' (fun r1 r2 : ntc_sge => r2.addr ≠ r1.addr + r1.len)
      (sg_ranges_from a l rest) ∧
    (∀ r ∈ sg_ranges_from a l rest, r.addr + r.len < 18446744073709551616) ∧
    ∃ l2 tl, sg_ranges_from a l rest = { addr := a, len := l2 } :: tl := by
  induction rest generalizing a l with
  | nil =>
    refine ⟨by simp [sg_ranges_from], ?_, l, [], rfl⟩
    intro r hr
    simp only [sg_ranges_from, List.mem_singleton] at hr
    subst hr
    exact hal
  | cons next rest ih =>
    have hnext := h next (by simp)
    have hrest : ∀ s ∈ rest, s.dma_address + s.dma_length < 18446744073709551616 :=
      fun s hs => h s (List.mem_cons_of_mem _ hs)
    have eal : u64_add a l = a + l := by unfold u64_add; omega
    unfold sg_ranges_from
    rw [eal]
    split_ifs with hn
    · have e : u64_add l next.dma_length = l + next.dma_length := by
        unfold u64_add; omega
      rw [e]
      exact ih a (l + next.dma_length) (by omega) hrest
    · obtain ⟨hc, hb, l2, tl, e2⟩ := ih next.dma_address next.dma_length hnext hrest
      refine ⟨?_, ?_, l, _, rfl⟩
      · rw [e2] at hc ⊢
        exact List.Chain'.cons hn hc
      · intro r hr
        rcases List.mem_cons.mp hr with rfl | hr
        · exact hal
        · exact hb r hr

/-- The range of a run extended by one segment. -/
theorem sg_run_range_concat (cur : List scatterlist) (next : scatterlist) (a l : Nat)
    (hne : cur ≠ []) (h : sg_run_range cur = { addr := a, len := l }) :
    sg_run_range (cur ++ [next]) = { addr := a, len := l + next.dma_length } := by
  cases cur with
  | nil => exact absurd rfl hne
  | cons s t =>
    simp only [sg_run_range, ntc_sge.mk.injEq] at h
    simp only [sg_run_range, List.cons_append, List.map_cons, List.map_append, List.sum_cons,
      List.sum_append, List.map_nil, List.sum_nil, ntc_sge.mk.injEq]
    constructor
    · exact h.1
    · have := h.2
      simp only [List.map_cons, List.sum_cons] at this
      omega

/-- Without address wraparound, the ranges from the open run `cur` are the ranges
of the maximal runs of adjacent segments of `cur ++ rest`. -/
theorem sg_ranges_from_runs (rest cur : List scatterlist) (a l : Nat)
    (hne : cur ≠ []) (hr : sg_run_range cur = { addr := a, len := l })
    (hch : List.Chain' sg_adjacent cur)
    (hend : ∀ p ∈ cur.getLast?, a + l = p.dma_address + p.dma_length)
    (hcur : ∀ s ∈ cur, s.dma_address + s.dma_length < 18446744073709551616)
    (h : ∀ s ∈ rest, s.dma_address + s.dma_length < 18446744073709551616) :
    ∃ tl runs,
      ((cur ++ tl) :: runs).flatten = cur ++ rest ∧
      (∀ r ∈ (cur ++ tl) :: runs, r ≠ [] ∧ List.Chain' sg_adjacent r) ∧
      List.Chain' (fun r1 r2 : List scatterlist =>
        ∀ p ∈ r1.getLast?, ∀ b ∈ r2.head?, ¬ sg_adjacent p b) ((cur ++ tl) :: runs) ∧
      sg_ranges_from a l rest = ((cur ++ tl) :: runs).map sg_run_range := by
  induction rest generalizing cur a l with
  | nil =>
    refine ⟨[], [], by simp, ?_, by simp, ?_⟩
    · intro r hr2
      simp only [List.append_nil, List.mem_singleton] at hr2
      subst hr2
      exact ⟨hne, hch⟩
    · simp [sg_ranges_from, hr]
  | cons next rest ih =>
    have hnext := h next (by simp)
    have hrest : ∀ s ∈ rest, s.dma_address + s.dma_length < 18446744073709551616 :=
      fun s hs => h s (List.mem_cons_of_mem _ hs)
    obtain ⟨p, hp⟩ : ∃ p, cur.getLast? = some p := by
      cases hcl : cur.getLast? with
      | none => exact absurd (List.getLast?_eq_none_iff.mp hcl) hne
      | some p => exact ⟨p, rfl⟩
    have hpm : p ∈ cur := List.mem_of_getLast?_eq_some hp
    have hal := hend p (by rw [hp]; rfl)
    have hpw := hcur p hpm
    have eal : u64_add a l = a + l := by unfold u64_add; omega
    unfold sg_ranges_from
    rw [eal]
    split_ifs with hn
    · have e : u64_add l next.dma_length = l + next.dma_length := by
        unfold u64_add; omega
      rw [e]
      obtain ⟨tl, runs, h1, h2, h3, h4⟩ := ih (cur ++ [next]) a (l + next.dma_length)
        (by simp) (sg_run_range_concat cur next a l hne hr)
        (List.chain'_append.mpr ⟨hch, List.chain'_singleton _, by
          intro x hx y hy
          rw [hp] at hx
          simp only [List.head?_cons, Option.mem_def, Option.some.injEq] at hx hy
          subst hx hy
          unfold sg_adjacent
          omega⟩)
        (by
          intro q hq
          rw [List.getLast?_concat] at hq
          simp only [Option.mem_def, Option.some.injEq] at hq
          subst hq
          omega)
        (by
          intro s hs
          rcases List.mem_append.mp hs with hs | hs
          · exact hcur s hs
          · simp only [List.mem_singleton] at hs
            subst hs
            exact hnext)
        hrest
      refine ⟨next :: tl, runs, ?_, ?_, ?_, ?_⟩
      · simpa [List.append_assoc] using h1
      · simpa [List.append_assoc] using h2
      · simpa [List.append_assoc] using h3
      · simpa [List.append_assoc] using h4
    · obtain ⟨tl, runs, h1, h2, h3, h4⟩ := ih [next] next.dma_address next.dma_length
        (by simp) rfl (List.chain'_singleton _)
        (by
          intro q hq
          simp only [List.getLast?_singleton, Option.mem_def, Option.some.injEq] at hq
          subst hq
          rfl)
        (by
          intro s hs
          simp only [List.mem_singleton] at hs
          subst hs
          exact hnext)
        hrest
      refine ⟨[], ([next] ++ tl) :: runs, ?_, ?_, ?_, ?_⟩
      · simp only [List.append_nil, List.flatten_cons] at h1 ⊢
        rw [h1]
        simp
      · intro r hr2
        simp only [List.append_nil] at hr2
        rcases List.mem_cons.mp hr2 with rfl | hr2
        · exact ⟨hne, hch⟩
        · exact h2 r hr2
      · simp only [List.append_nil]
        refine List.Chain'.cons ?_ h3
        intro x hx y hy
        rw [hp] at hx
        simp only [List.singleton_append, List.head?_cons, Option.mem_def,
          Option.some.injEq] at hx hy
        subst hx hy
        unfold sg_adjacent
        omega
      · simp only [List.append_nil, List.map_cons] at h4 ⊢
        rw [h4, hr]

/-- Without address wraparound, the coalesced ranges of a segment list are the
ranges of its maximal runs of adjacent segments. -/
theorem sg_ranges_runs (segs : List scatterlist)
    (h : ∀ s ∈ segs, s.dma_address + s.dma_length < 18446744073709551616) :
    ∃ runs : List (List scatterlist),
      runs.flatten = segs ∧
      (∀ r ∈ runs, r ≠ [] ∧ List.Chain' sg_adjacent r) ∧
      List.Chain' (fun r1 r2 : List scatterlist =>
        ∀ p ∈ r1.getLast?, ∀ b ∈ r2.head?, ¬ sg_adjacent p b) runs ∧
      sg_ranges segs = runs.map sg_run_range := by
  cases segs with
  | nil => exact ⟨[], rfl, by simp, by simp, rfl⟩
  | cons sg rest =>
    obtain ⟨tl, runs, h1, h2, h3, h4⟩ :=
      sg_ranges_from_runs rest [sg] sg.dma_address sg.dma_length (by simp)
        (by simp [sg_run_range]) (List.chain'_singleton _)
        (by
          intro q hq
          simp only [List.getLast?_singleton, Option.mem_def, Option.some.injEq] at hq
          subst hq
          rfl)
        (by
          intro s hs
          rw [List.mem_singleton.mp hs]
          exact h sg (by simp))
        (fun s hs => h s (List.mem_cons_of_mem _ hs))
    exact ⟨_, h1, h2, h3, h4⟩

/-- Without address wraparound, consecutive coalesced ranges are not adjacent
and no range end wraps. -/
theorem sg_ranges_chain (segs : List scatterlist)
    (h : ∀ s ∈ segs, s.dma_address + s.dma_length < 18446744073709551616) :
    List.Chain' (fun r1 r2 : ntc_sge => r2.addr ≠ r1.addr + r1.len) (sg_ranges segs) ∧
    (∀ r ∈ sg_ranges segs, r.addr + r.len < 18446744073709551616) := by
  cases segs with
  | nil => exact ⟨by simp [sg_ranges], by simp [sg_ranges]⟩
  | cons sg rest =>
    obtain ⟨h1, h2, -⟩ := sg_ranges_from_chain rest sg.dma_address sg.dma_length
      (h sg (by simp)) (fun s hs => h s (List.mem_cons_of_mem _ hs))
    exact ⟨h1, h2⟩

/-- Rounding up to a multiple of `P` adds the distance to the next multiple. -/
theorem round_up_eq (x P : Nat) (hP : 0 < P) :
    (x + P - 1) / P * P = x + (P - x % P) % P := by
  have hx := Nat.div_add_mod x P
  have hr := Nat.mod_lt x hP
  have hc := Nat.mul_comm P (x / P)
  by_cases h0 : x % P = 0
  · have e : (x + P - 1) / P = x / P :=
      Nat.div_eq_of_lt_le (by omega) (by rw [Nat.add_mul, Nat.one_mul]; omega)
    rw [e, h0, Nat.sub_zero, Nat.mod_self]
    omega
  · have e : (x + P - 1) / P = x / P + 1 :=
      Nat.div_eq_of_lt_le (by rw [Nat.add_mul, Nat.one_mul]; omega)
        (by rw [Nat.add_mul, Nat.add_mul, Nat.one_mul]; omega)
    rw [e, Nat.mod_eq_of_lt (by omega : P - x % P < P), Nat.add_mul, Nat.one_mul]
    omega

/-- The bytes trimmed from the last range: the unused tail of the last page. -/
theorem ntc_compress_sgl_tail_eq (PAGE_SHIFT offset length : Nat) (hs : PAGE_SHIFT < 64) :
    ntc_compress_sgl_tail (2 ^ PAGE_SHIFT) offset length =
      (2 ^ PAGE_SHIFT - (offset + length) % 2 ^ PAGE_SHIFT) % 2 ^ PAGE_SHIFT := by
  have hP : 0 < 2 ^ PAGE_SHIFT := Nat.pow_pos (by decide)
  have hle : 2 ^ PAGE_SHIFT ≤ 2 ^ 63 := Nat.pow_le_pow_right (by decide) (by omega)
  have h63 : (2 : Nat) ^ 63 = 9223372036854775808 := by decide
  have hd : 2 ^ PAGE_SHIFT ∣ 18446744073709551616 := by
    have : (18446744073709551616 : Nat) = 2 ^ 64 := by decide
    rw [this]
    exact Nat.pow_dvd_pow 2 (by omega)
  have hm : u64_not (PAGE_MASK (2 ^ PAGE_SHIFT)) = 2 ^ PAGE_SHIFT - 1 := by
    unfold u64_not PAGE_MASK u64_not
    omega
  unfold ntc_compress_sgl_tail
  rw [hm, Nat.and_pow_two_sub_one_eq_mod, Nat.and_pow_two_sub_one_eq_mod]
  have e1 : u64_add offset length % 2 ^ PAGE_SHIFT = (offset + length) % 2 ^ PAGE_SHIFT := by
    unfold u64_add
    exact Nat.mod_mod_of_dvd _ hd
  rw [e1]
  have hr := Nat.mod_lt (offset + length) hP
  have e2 : u64_sub (2 ^ PAGE_SHIFT) ((offset + length) % 2 ^ PAGE_SHIFT) =
      2 ^ PAGE_SHIFT - (offset + length) % 2 ^ PAGE_SHIFT := by
    unfold u64_sub
    omega
  rw [e2]

/-- Sum over the first indices of a function that reads the lengths of a list. -/
theorem sum_range_eq_sum_len (rs : List ntc_sge) (f : Nat → Nat)
    (h : ∀ j (hj : j < rs.length), f j = rs[j].len) :
    Finset.sum (Finset.range rs.length) f = (rs.map ntc_sge.len).sum := by
  induction rs generalizing f with
  | nil => simp
  | cons r t ih =>
    rw [List.length_cons, Finset.sum_range_succ', List.map_cons, List.sum_cons,
      ih (fun j => f (j + 1)) (fun j hj => h (j + 1) (by simp only [List.length_cons]; omega)),
      h 0 (by simp)]
    simp only [List.getElem_cons_zero]
    omega

/-- The segment lengths of a scatterlist add up to less than `2 ^ 64`. -/
theorem sg_length_sum_lt (segs : List scatterlist)
    (h32 : ∀ s ∈ segs, s.dma_length < 4294967296) (hn : segs.length < 4294967296) :
    (segs.map scatterlist.dma_length).sum < 18446744073709551616 := by
  have key : ∀ l : List scatterlist, (∀ s ∈ l, s.dma_length < 4294967296) →
      (l.map scatterlist.dma_length).sum ≤ l.length * 4294967295 := by
    intro l
    induction l with
    | nil => intro _; simp
    | cons a t ih =>
      intro h
      have ha := h a (by simp)
      have ht := ih (fun s hs => h s (List.mem_cons_of_mem _ hs))
      simp only [List.map_cons, List.sum_cons, List.length_cons]
      omega
  have := key segs h32
  omega

/-- Moving the start of a range by `off` keeps its end. -/
theorem u64_move_end (a l off : Nat) (ho : off ≤ l) :
    u64_add (u64_add a off) (u64_sub l off) = u64_add a l := by
  unfold u64_add u64_sub
  omega

/-- Shortening a range by `t` moves its end back by `t`. -/
theorem u64_shorten_end (a l t : Nat) (hl : l < 18446744073709551616) (ht : t ≤ l) :
    u64_add a (u64_sub l t) = u64_sub (u64_add a l) t := by
  unfold u64_add u64_sub
  omega

/-- Subtraction of a smaller 64-bit value is exact. -/
theorem u64_sub_exact (l t : Nat) (hl : l < 18446744073709551616) (ht : t ≤ l) :
    u64_sub l t = l - t := by
  unfold u64_sub
  omega

/-- Addition below `2 ^ 64` is exact. -/
theorem u64_add_exact (a b : Nat) (h : a + b < 18446744073709551616) :
    u64_add a b = a + b := by
  unfold u64_add
  omega

/-- Window cover on the list of ranges: when the ranges `r0 :: tl` add up to
`off + len + t`, the first one is at least `off` long and the last one at least
`t` long, the trimmed array covers exactly `len` bytes, starts `off` after the
start of the first range and ends `t` before the end of the last one. -/
theorem sg_window_cover_core (r0 rl : ntc_sge) (tl : List ntc_sge) (out : Nat → ntc_sge)
    (off t len : Nat)
    (hlast : (r0 :: tl).getLast? = some rl)
    (hsum : ((r0 :: tl).map ntc_sge.len).sum = off + len + t)
    (hlt : ((r0 :: tl).map ntc_sge.len).sum < 18446744073709551616)
    (hoff : off ≤ r0.len) (ht : t ≤ rl.len)
    (h1 : tl.length + 1 = 1 →
      out 0 = { addr := u64_add r0.addr off, len := u64_sub (u64_sub r0.len off) t })
    (h2 : tl.length + 1 ≠ 1 →
      out 0 = { addr := u64_add r0.addr off, len := u64_sub r0.len off } ∧
      out (tl.length + 1 - 1) = { addr := rl.addr, len := u64_sub rl.len t })
    (h3 : ∀ j (hj : j < tl.length), j + 1 ≠ tl.length + 1 - 1 → out (j + 1) = tl[j]) :
    Finset.sum (Finset.range (tl.length + 1)) (fun j => (out j).len) = len ∧
    (out 0).addr = u64_add r0.addr off ∧
    u64_add (out (tl.length + 1 - 1)).addr (out (tl.length + 1 - 1)).len =
      u64_sub (u64_add rl.addr rl.len) t ∧
    (r0.addr + r0.len < 18446744073709551616 → rl.addr + rl.len < 18446744073709551616 →
      (out (tl.length + 1 - 1)).addr + (out (tl.length + 1 - 1)).len =
        rl.addr + rl.len - t) := by
  rcases List.eq_nil_or_concat tl with rfl | ⟨tl2, x, rfl⟩
  · have e := h1 rfl
    simp only [List.getLast?_singleton, Option.some.injEq] at hlast
    subst hlast
    simp only [List.map_cons, List.map_nil, List.sum_cons, List.sum_nil, Nat.add_zero]
      at hsum hlt
    simp only [List.length_nil, Nat.zero_add, Finset.sum_range_one, Nat.sub_self]
    rw [e]
    simp only []
    have e1 : u64_sub r0.len off = r0.len - off := u64_sub_exact _ _ hlt hoff
    have e2 : u64_sub (r0.len - off) t = r0.len - off - t :=
      u64_sub_exact _ _ (by omega) (by omega)
    refine ⟨by rw [e1, e2]; omega, trivial, ?_, ?_⟩
    · rw [← u64_shorten_end _ _ _ hlt ht, e1, e2]
      unfold u64_add u64_sub
      omega
    · intro hw _
      rw [e1, e2, u64_add_exact _ _ (by omega)]
      omega
  · rw [List.concat_eq_append] at hlast hsum hlt h1 h2 h3 ⊢
    have hlen2 : (tl2 ++ [x]).length = tl2.length + 1 := by simp
    rw [hlen2] at h2 ⊢
    obtain ⟨o0, ol⟩ := h2 (by omega)
    have hrlx : rl = x := by
      rw [← List.cons_append, List.getLast?_concat] at hlast
      exact (Option.some.inj hlast).symm
    subst hrlx
    simp only [List.map_append, List.map_cons, List.map_nil, List.sum_append, List.sum_cons,
      List.sum_nil, Nat.add_zero] at hsum hlt
    have hmid : Finset.sum (Finset.range tl2.length) (fun j => (out (j + 1)).len) =
        (tl2.map ntc_sge.len).sum := by
      apply sum_range_eq_sum_len
      intro j hj
      rw [h3 j (by rw [hlen2]; omega) (by rw [hlen2]; omega)]
      simp [List.getElem_append_left hj]
    simp only [Nat.add_sub_cancel] at ol ⊢
    rw [Finset.sum_range_succ', Finset.sum_range_succ, hmid, o0, ol]
    simp only []
    have e1 : u64_sub r0.len off = r0.len - off := u64_sub_exact _ _ (by omega) hoff
    have e2 : u64_sub rl.len t = rl.len - t := u64_sub_exact _ _ (by omega) ht
    refine ⟨by rw [e1, e2]; omega, trivial, u64_shorten_end _ _ _ (by omega) ht, ?_⟩
    intro _ _
    rw [e2]
    omega

/-! ## Properties of `ntc_compress_sgl` -/

/-- C11: the value returned by `ntc_compress_sgl` is the number of coalesced
ranges of the segment list, whatever the output array, `count`, `offset` and
`length`: `0` for the empty list, otherwise `1` plus the number of positions
`i >= 1` with `seg[i].addr != seg[i-1].addr + seg[i-1].len` (64-bit sum); when no
segment end wraps around `2 ^ 64` the sum is the exact one. -/
theorem ntc_compress_sgl_returns_run_count (PAGE_SIZE : Nat) (segs : List scatterlist)
    (offset length : Nat) (sgl : Option (Nat → ntc_sge)) (count : Int) :
    (ntc_compress_sgl PAGE_SIZE segs offset length sgl count).dma_count =
      sg_run_count segs ∧
    (ntc_compress_sgl PAGE_SIZE [] offset length sgl count).dma_count = 0 ∧
    ((∀ s ∈ segs, s.dma_address + s.dma_length < 18446744073709551616) →
      (ntc_compress_sgl PAGE_SIZE segs offset length sgl count).dma_count =
        sg_run_count_exact segs) := by
  rw [ntc_compress_sgl_dma_count, ntc_compress_sgl_dma_count, sg_ranges_length]
  refine ⟨rfl, rfl, fun h => ?_⟩
  cases segs with
  | nil => rfl
  | cons sg rest =>
    simp only [sg_run_count, sg_run_count_exact]
    rw [sg_breaks_eq_exact _ h]

/-- Witness of C11: three pages, the first two adjacent, counted with a null
output array. -/
theorem ntc_compress_sgl_returns_run_count_witness :
    (∀ s ∈ [({ dma_address := 4096, dma_length := 4096 } : scatterlist),
        { dma_address := 8192, dma_length := 4096 },
        { dma_address := 20480, dma_length := 4096 }],
      s.dma_address + s.dma_length < 18446744073709551616) ∧
    (ntc_compress_sgl 4096 [{ dma_address := 4096, dma_length := 4096 },
        { dma_address := 8192, dma_length := 4096 },
        { dma_address := 20480, dma_length := 4096 }] 100 8000 none 0).dma_count =
      sg_run_count_exact [{ dma_address := 4096, dma_length := 4096 },
        { dma_address := 8192, dma_length := 4096 },
        { dma_address := 20480, dma_length := 4096 }] :=
  ⟨by decide,
    (ntc_compress_sgl_returns_run_count 4096 _ 100 8000 none 0).2.2 (by decide)⟩

/-- C12: exact window cover.  Page size `2 ^ PAGE_SHIFT`, `offset` below the page
size, `length > 0`, a non-empty scatterlist (fewer than `2 ^ 32` entries with
32-bit lengths) whose segment lengths are positive multiples of the page size
and add up to `offset + length` rounded up to a multiple of the page size.  When
`count` is at least the returned total, the lengths of the output ranges add up
to `length`, the first output address is the first segment address plus
`offset`, and the last output range ends at the end of the last segment minus
the unused tail `(P - (offset + length) mod P) mod P` (64-bit sums, exact when no
segment end wraps around `2 ^ 64`). -/
theorem ntc_compress_sgl_window_cover (PAGE_SHIFT : Nat) (segs : List scatterlist)
    (offset length : Nat) (buf : Nat → ntc_sge) (count : Int)
    (hs : PAGE_SHIFT < 64) (hoff : offset < 2 ^ PAGE_SHIFT) (_hlen : 0 < length)
    (hne : segs ≠ [])
    (hseg : ∀ s ∈ segs, 0 < s.dma_length ∧ 2 ^ PAGE_SHIFT ∣ s.dma_length)
    (h32 : ∀ s ∈ segs, s.dma_length < 4294967296) (hn32 : segs.length < 4294967296)
    (htot : (segs.map scatterlist.dma_length).sum =
      (offset + length + 2 ^ PAGE_SHIFT - 1) / 2 ^ PAGE_SHIFT * 2 ^ PAGE_SHIFT)
    (hcount : ((ntc_compress_sgl (2 ^ PAGE_SHIFT) segs offset length (some buf)
      count).dma_count : Int) ≤ count) :
    ∃ out,
      (ntc_compress_sgl (2 ^ PAGE_SHIFT) segs offset length (some buf) count).sgl = some out ∧
      Finset.sum
        (Finset.range
          (ntc_compress_sgl (2 ^ PAGE_SHIFT) segs offset length (some buf) count).dma_count)
        (fun j => (out j).len) = length ∧
      (out 0).addr = u64_add (segs.head hne).dma_address offset ∧
      u64_add
        (out ((ntc_compress_sgl (2 ^ PAGE_SHIFT) segs offset length (some buf)
          count).dma_count - 1)).addr
        (out ((ntc_compress_sgl (2 ^ PAGE_SHIFT) segs offset length (some buf)
          count).dma_count - 1)).len =
        u64_sub (u64_add (segs.getLast hne).dma_address (segs.getLast hne).dma_length)
          ((2 ^ PAGE_SHIFT - (offset + length) % 2 ^ PAGE_SHIFT) % 2 ^ PAGE_SHIFT) ∧
      ((∀ s ∈ segs, s.dma_address + s.dma_length < 18446744073709551616) →
        (out 0).addr = (segs.head hne).dma_address + offset ∧
        (out ((ntc_compress_sgl (2 ^ PAGE_SHIFT) segs offset length (some buf)
            count).dma_count - 1)).addr +
          (out ((ntc_compress_sgl (2 ^ PAGE_SHIFT) segs offset length (some buf)
            count).dma_count - 1)).len =
          (segs.getLast hne).dma_address + (segs.getLast hne).dma_length -
            (2 ^ PAGE_SHIFT - (offset + length) % 2 ^ PAGE_SHIFT) % 2 ^ PAGE_SHIFT) := by
  have hP : 0 < 2 ^ PAGE_SHIFT := Nat.pow_pos (by decide)
  have hsum := sg_length_sum_lt segs h32 hn32
  rw [round_up_eq _ _ hP] at htot
  have hTlt := Nat.mod_lt (2 ^ PAGE_SHIFT - (offset + length) % 2 ^ PAGE_SHIFT) hP
  have hlastP : 2 ^ PAGE_SHIFT ≤ (segs.getLast hne).dma_length :=
    Nat.le_of_dvd (hseg _ (List.getLast_mem hne)).1 (hseg _ (List.getLast_mem hne)).2
  have hheadP : 2 ^ PAGE_SHIFT ≤ (segs.head hne).dma_length :=
    Nat.le_of_dvd (hseg _ (List.head_mem hne)).1 (hseg _ (List.head_mem hne)).2
  have hchain := sg_ranges_chain segs
  have htail := ntc_compress_sgl_tail_eq PAGE_SHIFT offset length hs
  rw [ntc_compress_sgl_dma_count] at hcount ⊢
  rw [ntc_compress_sgl_some]
  generalize (2 ^ PAGE_SHIFT - (offset + length) % 2 ^ PAGE_SHIFT) % 2 ^ PAGE_SHIFT = T
    at htot hTlt htail ⊢
  generalize 2 ^ PAGE_SHIFT = P at hoff hseg hP hTlt hlastP hheadP htail hcount ⊢
  clear hseg h32 hn32 hs
  obtain ⟨sg, rest, rfl⟩ := List.exists_cons_of_ne_nil hne
  simp only [List.map_cons, List.sum_cons, List.head_cons] at hsum htot hheadP ⊢
  obtain ⟨l0, tl, hrs, hl0⟩ := sg_ranges_from_head rest sg.dma_address sg.dma_length hsum
  have hsumr := sg_ranges_from_sum rest sg.dma_address sg.dma_length hsum
  obtain ⟨rl, hrl, hrl1, hrl2⟩ : ∃ r,
      (sg_ranges_from sg.dma_address sg.dma_length rest).getLast? = some r ∧
      u64_add r.addr r.len =
        u64_add ((sg :: rest).getLast hne).dma_address
          ((sg :: rest).getLast hne).dma_length ∧
      ((sg :: rest).getLast hne).dma_length ≤ r.len :=
    sg_ranges_from_last rest sg.dma_address sg.dma_length sg rfl (Nat.le_refl _) hsum
  have hsr : sg_ranges (sg :: rest) = { addr := sg.dma_address, len := l0 } :: tl := hrs
  rw [hsr] at hcount hchain ⊢
  rw [hrs] at hsumr hrl
  simp only [List.length_cons] at hcount ⊢
  obtain ⟨out, ho, o1, o2, o3⟩ := ntc_compress_sgl_trim_full P offset length count
    (sgl_fill count ({ addr := sg.dma_address, len := l0 } :: tl) 0 buf) (tl.length + 1)
    (by omega) hcount
  rw [htail] at o1 o2
  have hw : ∀ j (hj : j < ({ addr := sg.dma_address, len := l0 } :: tl).length),
      sgl_fill count ({ addr := sg.dma_address, len := l0 } :: tl) 0 buf j =
        ({ addr := sg.dma_address, len := l0 } :: tl)[j] :=
    fun j hj => sgl_fill_of_lt count _ buf j hj
      (by simp only [List.length_cons] at hj; omega)
  have hw0 : sgl_fill count ({ addr := sg.dma_address, len := l0 } :: tl) 0 buf 0 =
      { addr := sg.dma_address, len := l0 } := hw 0 (by simp)
  have hwl : sgl_fill count ({ addr := sg.dma_address, len := l0 } :: tl) 0 buf
      (tl.length + 1 - 1) = rl := by
    rw [hw _ (by simp)]
    rw [List.getLast?_eq_getElem?, List.getElem?_eq_getElem (by simp)] at hrl
    simpa using hrl
  rw [hw0] at o1 o2
  rw [hwl] at o2
  have core := sg_window_cover_core { addr := sg.dma_address, len := l0 } rl tl out offset T
    length hrl (by rw [hsumr]; exact htot) (by rw [hsumr]; exact hsum)
    (by simp only []; omega) (by omega) o1 o2
    (by
      intro j hj hne2
      rw [o3 (j + 1) (by omega) hne2, hw (j + 1) (by simp only [List.length_cons]; omega)]
      simp)
  simp only [] at core
  refine ⟨out, by rw [ho], core.1, core.2.1, ?_, ?_⟩
  · rw [core.2.2.1, hrl1]
  · intro hwrap
    have hb := (hchain hwrap).2
    have hbl := hb rl (List.mem_of_getLast?_eq_some hrl)
    have hb0 := hb { addr := sg.dma_address, len := l0 } (by simp)
    have hlw := hwrap _ (List.getLast_mem hne)
    simp only [] at hb0
    refine ⟨?_, ?_⟩
    · rw [core.2.1]
      exact u64_add_exact _ _ (by omega)
    · rw [core.2.2.2 hb0 hbl]
      rw [u64_add_exact _ _ hbl, u64_add_exact _ _ hlw] at hrl1
      rw [hrl1]

/-- Witness of C12: page size `2 ^ 12`, three pages, `offset = 100`,
`length = 12000` (so that `100 + 12000` rounds up to the three pages),
`count = 2`. -/
theorem ntc_compress_sgl_window_cover_witness :
    (12 < 64 ∧ 100 < 2 ^ 12 ∧ 0 < 12000 ∧
      (∀ s ∈ [({ dma_address := 0x1000, dma_length := 4096 } : scatterlist),
          { dma_address := 0x2000, dma_length := 4096 },
          { dma_address := 0x5000, dma_length := 4096 }],
        0 < s.dma_length ∧ 2 ^ 12 ∣ s.dma_length) ∧
      ([({ dma_address := 0x1000, dma_length := 4096 } : scatterlist),
          { dma_address := 0x2000, dma_length := 4096 },
          { dma_address := 0x5000, dma_length := 4096 }].map scatterlist.dma_length).sum =
        (100 + 12000 + 2 ^ 12 - 1) / 2 ^ 12 * 2 ^ 12 ∧
      ((ntc_compress_sgl (2 ^ 12)
        [{ dma_address := 0x1000, dma_length := 4096 },
          { dma_address := 0x2000, dma_length := 4096 },
          { dma_address := 0x5000, dma_length := 4096 }]
        100 12000 (some (fun _ => { addr := 0, len := 0 })) 2).dma_count : Int) ≤ 2) ∧
    ∃ out,
      (ntc_compress_sgl (2 ^ 12)
        [{ dma_address := 0x1000, dma_length := 4096 },
          { dma_address := 0x2000, dma_length := 4096 },
          { dma_address := 0x5000, dma_length := 4096 }]
        100 12000 (some (fun _ => { addr := 0, len := 0 })) 2).sgl = some out ∧
      Finset.sum
        (Finset.range
          (ntc_compress_sgl (2 ^ 12)
            [{ dma_address := 0x1000, dma_length := 4096 },
              { dma_address := 0x2000, dma_length := 4096 },
              { dma_address := 0x5000, dma_length := 4096 }]
            100 12000 (some (fun _ => { addr := 0, len := 0 })) 2).dma_count)
        (fun j => (out j).len) = 12000 :=
  ⟨by decide,
    match ntc_compress_sgl_window_cover 12
      [{ dma_address := 0x1000, dma_length := 4096 },
        { dma_address := 0x2000, dma_length := 4096 },
        { dma_address := 0x5000, dma_length := 4096 }]
      100 12000 (fun _ => { addr := 0, len := 0 }) 2 (by decide) (by decide) (by decide)
      (List.cons_ne_nil _ _) (by decide) (by decide) (by decide) (by decide) (by decide) with
    | ⟨out, h1, h2, _⟩ => ⟨out, h1, h2⟩⟩

/-- C13: overflow leaves a valid prefix.  When `1 <= k < total` (`offset` a 64-bit
value), the call with `count = k` leaves every entry at index `k` and above
unchanged, and its entries `0 .. k-1` are those of the call with
`count = total` (whatever the previous contents of the two arrays): they do not
depend on `length` nor on the page size (no tail trim), entry 0 is the entry of
the call with `offset = 0` moved by `offset`, and the other entries are those of
the call with `offset = 0`. -/
theorem ntc_compress_sgl_overflow_prefix (PAGE_SIZE : Nat) (segs : List scatterlist)
    (offset length : Nat) (buf buf2 : Nat → ntc_sge) (k : Nat) (PAGE_SIZE2 length2 : Nat)
    (ho : offset < 18446744073709551616) (h1 : 1 ≤ k)
    (hk : k < (ntc_compress_sgl PAGE_SIZE segs offset length (some buf) k).dma_count) :
    ∃ out outT out0,
      (ntc_compress_sgl PAGE_SIZE segs offset length (some buf) k).sgl = some out ∧
      (ntc_compress_sgl PAGE_SIZE segs offset length (some buf2)
        ((ntc_compress_sgl PAGE_SIZE segs offset length (some buf) k).dma_count : Nat)).sgl =
          some outT ∧
      (ntc_compress_sgl PAGE_SIZE segs 0 length (some buf) k).sgl = some out0 ∧
      (∀ j, k ≤ j → out j = buf j) ∧
      (∀ j, j < k → out j = outT j) ∧
      (ntc_compress_sgl PAGE_SIZE2 segs offset length2 (some buf) k).sgl = some out ∧
      out 0 = { addr := u64_add (out0 0).addr offset, len := u64_sub (out0 0).len offset } ∧
      (∀ j, 0 < j → out j = out0 j) := by
  rw [ntc_compress_sgl_dma_count] at hk ⊢
  have hn0 : (sg_ranges segs).length ≠ 0 := by omega
  have hk0 : (0 : Int) < (k : Int) := by omega
  have hkn : ¬ (((sg_ranges segs).length : Nat) : Int) ≤ (k : Int) := by omega
  obtain ⟨outT, hT, -, t2, t3⟩ := ntc_compress_sgl_trim_full PAGE_SIZE offset length
    (((sg_ranges segs).length : Nat) : Int) (sgl_fill _ (sg_ranges segs) 0 buf2)
    (sg_ranges segs).length hn0 (Int.le_refl _)
  rw [ntc_compress_sgl_some, ntc_compress_sgl_some, ntc_compress_sgl_some,
    ntc_compress_sgl_some, hT,
    ntc_compress_sgl_trim_first PAGE_SIZE offset length _ _ _ hn0 hk0 hkn,
    ntc_compress_sgl_trim_first PAGE_SIZE 0 length _ _ _ hn0 hk0 hkn,
    ntc_compress_sgl_trim_first PAGE_SIZE2 offset length2 _ _ _ hn0 hk0 hkn]
  refine ⟨_, _, _, rfl, rfl, rfl, ?_, ?_, rfl, ?_, ?_⟩
  · intro j hj
    unfold sgl_set
    rw [if_neg (by omega)]
    exact sgl_fill_of_ge _ _ _ _ (Or.inl (by omega))
  · intro j hj
    have hjn : j < (sg_ranges segs).length := by omega
    unfold sgl_set
    by_cases hj0 : j = 0
    · subst hj0
      rw [if_pos rfl, (t2 (by omega)).1,
        sgl_fill_of_lt _ _ buf 0 hjn (by omega), sgl_fill_of_lt _ _ buf2 0 hjn (by omega)]
    · rw [if_neg hj0, t3 j hj0 (by omega),
        sgl_fill_of_lt _ _ buf j hjn (by omega), sgl_fill_of_lt _ _ buf2 j hjn (by omega)]
  · unfold sgl_set
    rw [if_pos rfl, if_pos rfl]
    simp only [ntc_sge.mk.injEq, u64_add, u64_sub]
    constructor <;> omega
  · intro j hj
    unfold sgl_set
    rw [if_neg (by omega), if_neg (by omega)]

/-- Witness of C13: three separate pages, `count = 1`. -/
theorem ntc_compress_sgl_overflow_prefix_witness :
    (100 < 18446744073709551616 ∧ 1 ≤ 1 ∧ 1 < (ntc_compress_sgl 4096
      [{ dma_address := 0x1000, dma_length := 4096 },
        { dma_address := 0x3000, dma_length := 4096 },
        { dma_address := 0x5000, dma_length := 4096 }]
      100 12000 (some (fun _ => { addr := 0, len := 0 })) ((1 : Nat) : Int)).dma_count) ∧
    ∃ out outT out0,
      (ntc_compress_sgl 4096
        [{ dma_address := 0x1000, dma_length := 4096 },
          { dma_address := 0x3000, dma_length := 4096 },
          { dma_address := 0x5000, dma_length := 4096 }]
        100 12000 (some (fun _ => { addr := 0, len := 0 })) ((1 : Nat) : Int)).sgl = some out ∧
      (ntc_compress_sgl 4096
        [{ dma_address := 0x1000, dma_length := 4096 },
          { dma_address := 0x3000, dma_length := 4096 },
          { dma_address := 0x5000, dma_length := 4096 }]
        100 12000 (some (fun _ => { addr := 1, len := 1 }))
        ((ntc_compress_sgl 4096
          [{ dma_address := 0x1000, dma_length := 4096 },
            { dma_address := 0x3000, dma_length := 4096 },
            { dma_address := 0x5000, dma_length := 4096 }]
          100 12000 (some (fun _ => { addr := 0, len := 0 }))
          ((1 : Nat) : Int)).dma_count : Nat)).sgl = some outT ∧
      (ntc_compress_sgl 4096
        [{ dma_address := 0x1000, dma_length := 4096 },
          { dma_address := 0x3000, dma_length := 4096 },
          { dma_address := 0x5000, dma_length := 4096 }]
        0 12000 (some (fun _ => { addr := 0, len := 0 })) ((1 : Nat) : Int)).sgl = some out0 ∧
      (∀ j, 1 ≤ j → out j = { addr := 0, len := 0 }) ∧
      (∀ j, j < 1 → out j = outT j) ∧
      (ntc_compress_sgl 8192
        [{ dma_address := 0x1000, dma_length := 4096 },
          { dma_address := 0x3000, dma_length := 4096 },
          { dma_address := 0x5000, dma_length := 4096 }]
        100 5 (some (fun _ => { addr := 0, len := 0 })) ((1 : Nat) : Int)).sgl = some out ∧
      out 0 = { addr := u64_add (out0 0).addr 100, len := u64_sub (out0 0).len 100 } ∧
      (∀ j, 0 < j → out j = out0 j) :=
  ⟨by decide,
    ntc_compress_sgl_overflow_prefix 4096 _ 100 12000 (fun _ => { addr := 0, len := 0 })
      (fun _ => { addr := 1, len := 1 }) 1 8192 5 (by decide) (by decide) (by decide)⟩

/-- C14: counting pass.  Called with `count = 0`, `ntc_compress_sgl` leaves the
output array unchanged; called with a null array it has no array to write; in
both cases it returns the same total as any other call on the same segment
list, and `2` for the segments `(0x1000, 4096)`, `(0x2000, 4096)`,
`(0x5000, 4096)`. -/
theorem ntc_compress_sgl_counting_pass (PAGE_SIZE : Nat) (segs : List scatterlist)
    (offset length : Nat) (buf : Nat → ntc_sge) (sgl : Option (Nat → ntc_sge))
    (count : Int) :
    (ntc_compress_sgl PAGE_SIZE segs offset length (some buf) 0).sgl = some buf ∧
    (ntc_compress_sgl PAGE_SIZE segs offset length none count).sgl = none ∧
    (ntc_compress_sgl PAGE_SIZE segs offset length (some buf) 0).dma_count =
      (ntc_compress_sgl PAGE_SIZE segs offset length sgl count).dma_count ∧
    (ntc_compress_sgl PAGE_SIZE segs offset length none count).dma_count =
      (ntc_compress_sgl PAGE_SIZE segs offset length sgl count).dma_count ∧
    (ntc_compress_sgl PAGE_SIZE
      [{ dma_address := 0x1000, dma_length := 4096 },
        { dma_address := 0x2000, dma_length := 4096 },
        { dma_address := 0x5000, dma_length := 4096 }]
      offset length (some buf) 0).dma_count = 2 ∧
    (ntc_compress_sgl PAGE_SIZE
      [{ dma_address := 0x1000, dma_length := 4096 },
        { dma_address := 0x2000, dma_length := 4096 },
        { dma_address := 0x5000, dma_length := 4096 }]
      offset length none count).dma_count = 2 := by
  refine ⟨?_, ?_, ?_, ?_, ?_, ?_⟩
  · rw [ntc_compress_sgl_some,
      ntc_compress_sgl_trim_skip _ _ _ _ _ _ (Or.inr (Int.le_refl 0))]
    have e : sgl_fill 0 (sg_ranges segs) 0 buf = buf := by
      funext j
      exact sgl_fill_of_ge 0 _ buf j (Or.inl (by omega))
    rw [e]
  · rw [ntc_compress_sgl_none]
  · rw [ntc_compress_sgl_dma_count, ntc_compress_sgl_dma_count]
  · rw [ntc_compress_sgl_dma_count, ntc_compress_sgl_dma_count]
  · rw [ntc_compress_sgl_dma_count]
    rfl
  · rw [ntc_compress_sgl_dma_count]
    rfl

/-- C15: page size 4096, segments `(0x1000, 4096)`, `(0x2000, 4096)`,
`(0x5000, 4096)`, `offset = 100`, `length = 8000` and `count >= 2`:
`ntc_compress_sgl` returns `2`, range 0 is `(0x1064, 8092)`, range 1 is
`(0x5000, 4004)` with `4004 = 4096 - 92` and `92 = 4096 - (100 + 8000) mod 4096`,
and the array is unchanged from index 2 on. -/
theorem ntc_compress_sgl_example (buf : Nat → ntc_sge) (count : Int) (h : 2 ≤ count) :
    (ntc_compress_sgl 4096
      [{ dma_address := 0x1000, dma_length := 4096 },
        { dma_address := 0x2000, dma_length := 4096 },
        { dma_address := 0x5000, dma_length := 4096 }]
      100 8000 (some buf) count).dma_count = 2 ∧
    ∃ out, (ntc_compress_sgl 4096
      [{ dma_address := 0x1000, dma_length := 4096 },
        { dma_address := 0x2000, dma_length := 4096 },
        { dma_address := 0x5000, dma_length := 4096 }]
      100 8000 (some buf) count).sgl = some out ∧
      out 0 = { addr := 0x1064, len := 8092 } ∧
      out 1 = { addr := 0x5000, len := 4096 - 92 } ∧
      92 = 4096 - (100 + 8000) % 4096 ∧
      ∀ j, 2 ≤ j → out j = buf j := by
  have hr : sg_ranges [{ dma_address := 0x1000, dma_length := 4096 },
      { dma_address := 0x2000, dma_length := 4096 },
      { dma_address := 0x5000, dma_length := 4096 }] =
      [{ addr := 0x1000, len := 8192 }, { addr := 0x5000, len := 4096 }] := rfl
  have ht : ntc_compress_sgl_tail 4096 100 8000 = 92 := by decide
  obtain ⟨out, ho, -, o2, o3⟩ := ntc_compress_sgl_trim_full 4096 100 8000 count
    (sgl_fill count [{ addr := 0x1000, len := 8192 }, { addr := 0x5000, len := 4096 }] 0 buf)
    2 (by decide) h
  obtain ⟨o0, o1⟩ := o2 (by decide)
  rw [ntc_compress_sgl_dma_count, ntc_compress_sgl_some, hr]
  have hl : [({ addr := 0x1000, len := 8192 } : ntc_sge),
      { addr := 0x5000, len := 4096 }].length = 2 := rfl
  rw [hl, ho]
  have f0 := sgl_fill_of_lt count
    [{ addr := 0x1000, len := 8192 }, { addr := 0x5000, len := 4096 }] buf 0
    (by decide) (by omega)
  have f1 := sgl_fill_of_lt count
    [{ addr := 0x1000, len := 8192 }, { addr := 0x5000, len := 4096 }] buf 1
    (by decide) (by omega)
  rw [f0] at o0
  rw [show 2 - 1 = 1 from rfl, f1, ht] at o1
  refine ⟨rfl, out, rfl, ?_, ?_, by decide, ?_⟩
  · rw [o0]
    rfl
  · rw [o1]
    rfl
  · intro j hj
    rw [o3 j (by omega) (by omega)]
    exact sgl_fill_of_ge _ _ _ _ (Or.inr hj)

/-- Witness of C15 with `count = 2` and an array of zero entries. -/
theorem ntc_compress_sgl_example_witness :
    ((2 : Int) ≤ 2) ∧
    (ntc_compress_sgl 4096
      [{ dma_address := 0x1000, dma_length := 4096 },
        { dma_address := 0x2000, dma_length := 4096 },
        { dma_address := 0x5000, dma_length := 4096 }]
      100 8000 (some (fun _ => { addr := 0, len := 0 })) 2).dma_count = 2 :=
  ⟨by decide, (ntc_compress_sgl_example (fun _ => { addr := 0, len := 0 }) 2 (by decide)).1⟩

/-- C16: minimality of the output.  For a segment list without address
wraparound and `count` at least the returned total, the array before trimming
holds, in order, the ranges of the maximal runs of adjacent segments (the runs
concatenate to the segment list, each run is a non-empty chain of adjacent
segments, the last segment of a run is not adjacent to the first segment of the
next run, and entry `j` has the address of the first segment of run `j` and the
sum of its segment lengths); and when `offset` does not exceed the length of the
first range, no two consecutive output ranges are adjacent:
`out[i].addr + out[i].len != out[i+1].addr` for `i + 1 < total`. -/
theorem ntc_compress_sgl_minimal (PAGE_SIZE : Nat) (segs : List scatterlist)
    (offset length : Nat) (buf : Nat → ntc_sge) (count : Int)
    (hwrap : ∀ s ∈ segs, s.dma_address + s.dma_length < 18446744073709551616)
    (hcount : ((ntc_compress_sgl PAGE_SIZE segs offset length (some buf) count).dma_count : Int)
      ≤ count) :
    ∃ (w out : Nat → ntc_sge) (runs : List (List scatterlist)),
      (ntc_compress_sgl_walk count segs.length segs { sgl := some buf, dma_count := 0 }).sgl =
        some w ∧
      (ntc_compress_sgl PAGE_SIZE segs offset length (some buf) count).sgl = some out ∧
      runs.flatten = segs ∧
      (∀ r ∈ runs, r ≠ [] ∧ List.Chain' sg_adjacent r) ∧
      List.Chain' (fun r1 r2 : List scatterlist =>
        ∀ p ∈ r1.getLast?, ∀ b ∈ r2.head?, ¬ sg_adjacent p b) runs ∧
      runs.length = (ntc_compress_sgl PAGE_SIZE segs offset length (some buf) count).dma_count ∧
      (∀ j (hj : j < runs.length), w j = sg_run_range runs[j]) ∧
      (offset ≤ (w 0).len →
        ∀ i, i + 1 < (ntc_compress_sgl PAGE_SIZE segs offset length (some buf) count).dma_count →
          (out i).addr + (out i).len ≠ (out (i + 1)).addr) := by
  rw [ntc_compress_sgl_dma_count] at hcount ⊢
  obtain ⟨runs, hr1, hr2, hr3, hr4⟩ := sg_ranges_runs segs hwrap
  obtain ⟨hc, hb⟩ := sg_ranges_chain segs hwrap
  have hlen : runs.length = (sg_ranges segs).length := by rw [hr4, List.length_map]
  rw [ntc_compress_sgl_walk_some, ntc_compress_sgl_some]
  have hw : ∀ j (hj : j < (sg_ranges segs).length),
      sgl_fill count (sg_ranges segs) 0 buf j = (sg_ranges segs)[j] :=
    fun j hj => sgl_fill_of_lt count _ buf j hj (by omega)
  have hwr : ∀ j (hj : j < runs.length),
      sgl_fill count (sg_ranges segs) 0 buf j = sg_run_range runs[j] := by
    intro j hj
    rw [hw j (by omega)]
    simp only [hr4, List.getElem_map]
  by_cases hn0 : (sg_ranges segs).length = 0
  · rw [ntc_compress_sgl_trim_skip _ _ _ _ _ _ (Or.inl hn0)]
    refine ⟨_, _, runs, rfl, rfl, hr1, hr2, hr3, hlen, hwr, ?_⟩
    intro _ i hi
    omega
  · obtain ⟨out, ho, -, o2, o3⟩ := ntc_compress_sgl_trim_full PAGE_SIZE offset length count
      (sgl_fill count (sg_ranges segs) 0 buf) (sg_ranges segs).length hn0 hcount
    rw [ho]
    refine ⟨_, out, runs, rfl, rfl, hr1, hr2, hr3, hlen, hwr, ?_⟩
    intro hoff i hi
    obtain ⟨o0, ol⟩ := o2 (by omega)
    have hna := List.chain'_iff_get.mp hc i (by omega)
    simp only [List.get_eq_getElem] at hna
    have hbi := hb _ (List.getElem_mem (show i < (sg_ranges segs).length by omega))
    have hw0 := hw 0 (by omega)
    have hwi := hw i (by omega)
    have hwi1 := hw (i + 1) (by omega)
    generalize (sg_ranges segs)[i] = ri at hna hbi hwi
    generalize (sg_ranges segs)[i + 1] = rn at hna hwi1
    generalize (sg_ranges segs)[0] = r0 at hw0
    rw [hw0] at hoff o0
    have hn1 : i + 1 ≠ 0 := by omega
    have hi1 : i ≠ (sg_ranges segs).length - 1 := by omega
    clear hw hwr hb hc hr1 hr2 hr3 hr4 hlen ho hcount hwrap
    have hnext : (out (i + 1)).addr = rn.addr := by
      by_cases hl : i + 1 = (sg_ranges segs).length - 1
      · rw [← hl, hwi1] at ol
        rw [ol]
      · rw [o3 (i + 1) hn1 hl, hwi1]
    have hthis : (out i).addr + (out i).len = ri.addr + ri.len := by
      by_cases hi0 : i = 0
      · subst hi0
        have e0 : r0 = ri := hw0.symm.trans hwi
        subst e0
        have ea : u64_add r0.addr offset = r0.addr + offset := u64_add_exact _ _ (by omega)
        have el : u64_sub r0.len offset = r0.len - offset := u64_sub_exact _ _ (by omega) hoff
        rw [o0, ea, el]
        simp only []
        omega
      · rw [o3 i hi0 hi1, hwi]
    rw [hnext, hthis]
    exact fun h => hna h.symm

/-- Witness of C16: three pages, the first two adjacent, `count = 2`. -/
theorem ntc_compress_sgl_minimal_witness :
    ((∀ s ∈ [({ dma_address := 0x1000, dma_length := 4096 } : scatterlist),
          { dma_address := 0x2000, dma_length := 4096 },
          { dma_address := 0x5000, dma_length := 4096 }],
        s.dma_address + s.dma_length < 18446744073709551616) ∧
      ((ntc_compress_sgl 4096
        [{ dma_address := 0x1000, dma_length := 4096 },
          { dma_address := 0x2000, dma_length := 4096 },
          { dma_address := 0x5000, dma_length := 4096 }]
        100 8000 (some (fun _ => { addr := 0, len := 0 })) 2).dma_count : Int) ≤ 2) ∧
    ∃ runs : List (List scatterlist),
      runs.flatten = [{ dma_address := 0x1000, dma_length := 4096 },
          { dma_address := 0x2000, dma_length := 4096 },
          { dma_address := 0x5000, dma_length := 4096 }] ∧
      runs.length = (ntc_compress_sgl 4096
        [{ dma_address := 0x1000, dma_length := 4096 },
          { dma_address := 0x2000, dma_length := 4096 },
          { dma_address := 0x5000, dma_length := 4096 }]
        100 8000 (some (fun _ => { addr := 0, len := 0 })) 2).dma_count :=
  ⟨by decide,
    match ntc_compress_sgl_minimal 4096
      [{ dma_address := 0x1000, dma_length := 4096 },
        { dma_address := 0x2000, dma_length := 4096 },
        { dma_address := 0x5000, dma_length := 4096 }]
      100 8000 (fun _ => { addr := 0, len := 0 }) 2 (by decide) (by decide) with
    | ⟨_, _, runs, _, _, h3, _, _, h6, _⟩ => ⟨runs, h3, h6⟩⟩

/-! ### Contiguous runs, well-formed ranges, assertions, consume round trip -/

/-- Validity and closed forms of the counts from the closed-form distance. -/
theorem ntrdma_ring_closed_forms (prod c cap : Nat) (h2 : 2 * cap < 4294967296)
    (hp : prod < 2 * cap) (hc : c < 2 * cap)
    (hle : (if prod < c then prod + 2 * cap - c else prod - c) ≤ cap) :
    ntrdma_ring_valid prod c cap = true ∧
    ntrdma_ring_count prod c cap = (if prod < c then prod + 2 * cap - c else prod - c) ∧
    ntrdma_ring_space prod c cap =
      (if prod < c then c - cap - prod else cap + c - prod) := by
  have e := ntrdma_ring_count_eq prod c cap h2 hp hc
  have hle2 : ntrdma_ring_count prod c cap ≤ cap := by rw [e]; exact hle
  refine ⟨?_, e, ntrdma_ring_space_eq prod c cap h2 hp hc hle2⟩
  rw [ntrdma_ring_valid_iff, u32_shl1_eq cap h2]
  exact ⟨hp, hc, hle2⟩

/-- Index within its half of a counter of the doubled index space, by cases. -/
theorem half_index_eq (x cap : Nat) (hx : x < 2 * cap) :
    x % cap = if x < cap then x else x - cap := by
  split_ifs with h
  · exact Nat.mod_eq_of_lt h
  · rw [Nat.mod_eq_sub_mod (by omega)]
    exact Nat.mod_eq_of_lt (by omega)

/-- Contiguous counts of a ring accepted by `ntrdma_ring_valid` although
`2 * cap` does not fit in 32 bits: both counters are below `cap`. -/
theorem ntrdma_ring_ctg_large_cap (prod cons cap : Nat) (hk : cap < 4294967296)
    (h2 : ¬ 2 * cap < 4294967296) (hv : ntrdma_ring_valid prod cons cap = true) :
    prod < cap ∧ cons < cap ∧
    ntrdma_ring_produce prod cons cap = { base := 0, prod_idx := prod, prod_end := cap } ∧
    ntrdma_ring_space_ctg prod cons cap = cap - prod ∧
    ntrdma_ring_count_ctg prod cons cap = u32_sub prod cons := by
  rw [ntrdma_ring_valid_iff] at hv
  obtain ⟨hp1, hc1, -⟩ := hv
  unfold u32_shl1 at hp1 hc1
  have hp : prod < cap := by omega
  have hc : cons < cap := by omega
  have e1 : ntrdma_ring_produce prod cons cap =
      { base := 0, prod_idx := prod, prod_end := cap } := by
    unfold ntrdma_ring_produce
    rw [if_pos hp, if_pos hc]
  have e2 : ntrdma_ring_consume prod cons cap =
      { base := 0, cons_idx := cons, cons_end := prod } := by
    unfold ntrdma_ring_consume
    rw [if_pos hc, if_pos hp]
  refine ⟨hp, hc, e1, ?_, ?_⟩
  · unfold ntrdma_ring_space_ctg
    simp only [e1]
    rw [u32_of_int_s32_sub _ _ hk (by omega)]
    unfold u32_sub
    omega
  · unfold ntrdma_ring_count_ctg
    simp only [e2]
    rw [u32_of_int_s32_sub _ _ (by omega) (by omega)]

/-- C17 (amended): maximal contiguous run.  On a valid ring with `2 * cap`
representable in 32 bits, `ntrdma_ring_space_ctg` is the minimum of
`ntrdma_ring_space` and `cap - prod mod cap`, and `ntrdma_ring_count_ctg` is the
minimum of `ntrdma_ring_count` and `cap - cons mod cap`; on every valid ring a
contiguous count is zero exactly when the total count is zero. -/
theorem ntrdma_ring_ctg_eq_min (prod cons cap : Nat) (hk : cap < 4294967296)
    (hv : ntrdma_ring_valid prod cons cap = true) :
    (2 * cap < 4294967296 →
      ntrdma_ring_space_ctg prod cons cap =
        min (ntrdma_ring_space prod cons cap) (cap - prod % cap) ∧
      ntrdma_ring_count_ctg prod cons cap =
        min (ntrdma_ring_count prod cons cap) (cap - cons % cap)) ∧
    (ntrdma_ring_space_ctg prod cons cap = 0 ↔ ntrdma_ring_space prod cons cap = 0) ∧
    (ntrdma_ring_count_ctg prod cons cap = 0 ↔ ntrdma_ring_count prod cons cap = 0) := by
  by_cases h2 : 2 * cap < 4294967296
  · obtain ⟨hp, hc, hb⟩ := ntrdma_ring_valid_bounds prod cons cap h2 hv
    have hcnt := ((ntrdma_ring_valid_iff prod cons cap).1 hv).2.2
    rw [(ntrdma_ring_count_ctg_eq prod cons cap h2 hv).2.2,
      (ntrdma_ring_space_ctg_eq prod cons cap h2 hv).2.2,
      ntrdma_ring_consume_eq prod cons cap h2 hp hc,
      ntrdma_ring_produce_eq prod cons cap h2 hp hc,
      ntrdma_ring_space_eq prod cons cap h2 hp hc hcnt,
      ntrdma_ring_count_eq prod cons cap h2 hp hc,
      half_index_eq prod cap hp, half_index_eq cons cap hc]
    refine ⟨fun _ => ⟨?_, ?_⟩, ?_, ?_⟩ <;>
      split_ifs at hb ⊢ <;> simp only [] <;> omega
  · obtain ⟨hp, hc, -, es, ec⟩ := ntrdma_ring_ctg_large_cap prod cons cap hk h2 hv
    rw [ntrdma_ring_valid_iff] at hv
    obtain ⟨hp1, hc1, hcnt⟩ := hv
    rw [es, ec]
    refine ⟨fun h => absurd h h2, ?_, ?_⟩
    · simp only [ntrdma_ring_space, ntrdma_ring_count, u32_add, u32_sub, u32_shl1]
        at hp1 hc1 hcnt ⊢
      split_ifs at hcnt ⊢ <;> omega
    · simp only [ntrdma_ring_count, u32_add, u32_sub, u32_shl1] at hp1 hc1 hcnt ⊢
      split_ifs at hcnt ⊢ <;> omega

/-- Witness of C17 (amended): `cap = 4`, `prod = 2`, `cons = 1`; three entries are
free, two of them up to the end of the buffer. -/
theorem ntrdma_ring_ctg_eq_min_witness :
    (4 < 4294967296 ∧ ntrdma_ring_valid 2 1 4 = true ∧ 2 * 4 < 4294967296) ∧
    ntrdma_ring_space_ctg 2 1 4 = min (ntrdma_ring_space 2 1 4) (4 - 2 % 4) ∧
    ntrdma_ring_count_ctg 2 1 4 = min (ntrdma_ring_count 2 1 4) (4 - 1 % 4) :=
  ⟨by decide, (ntrdma_ring_ctg_eq_min 2 1 4 (by decide) (by decide)).1 (by decide)⟩

/-- Counterexample to C17 as stated: with `cap = 2 ^ 31 + 6` the shift `cap << 1`
wraps to `12`, so `prod = 0`, `cons = 1` passes `ntrdma_ring_valid` (count `11`),
while `ntrdma_ring_space_ctg = cap` and `ntrdma_ring_space = cap - 11`. -/
theorem ntrdma_ring_ctg_eq_min_fails_large_cap :
    ntrdma_ring_valid 0 1 2147483654 = true ∧
    ntrdma_ring_space 0 1 2147483654 = 2147483643 ∧
    ntrdma_ring_space_ctg 0 1 2147483654 = 2147483654 ∧
    ntrdma_ring_space_ctg 0 1 2147483654 ≠
      min (ntrdma_ring_space 0 1 2147483654) (2147483654 - 0 % 2147483654) := by
  decide

/-- C18 (amended): well-formed ranges.  On a valid ring, `ntrdma_ring_produce`
yields `base` equal to `0` or `cap`, `base + prod_idx = prod`,
`prod_idx <= prod_end <= cap` and `prod_idx < cap`; when moreover `2 * cap` is
representable in 32 bits, `ntrdma_ring_consume` yields `base` equal to `0` or
`cap`, `base + cons_idx = cons`, `cons_idx <= cons_end <= cap` and
`cons_idx < cap`. -/
theorem ntrdma_ring_ranges_well_formed (prod cons cap : Nat) (hk : cap < 4294967296)
    (hv : ntrdma_ring_valid prod cons cap = true) :
    (((ntrdma_ring_produce prod cons cap).base = 0 ∨
        (ntrdma_ring_produce prod cons cap).base = cap) ∧
      (ntrdma_ring_produce prod cons cap).base +
        (ntrdma_ring_produce prod cons cap).prod_idx = prod ∧
      (ntrdma_ring_produce prod cons cap).prod_idx ≤
        (ntrdma_ring_produce prod cons cap).prod_end ∧
      (ntrdma_ring_produce prod cons cap).prod_end ≤ cap ∧
      (ntrdma_ring_produce prod cons cap).prod_idx < cap) ∧
    (2 * cap < 4294967296 →
      ((ntrdma_ring_consume prod cons cap).base = 0 ∨
        (ntrdma_ring_consume prod cons cap).base = cap) ∧
      (ntrdma_ring_consume prod cons cap).base +
        (ntrdma_ring_consume prod cons cap).cons_idx = cons ∧
      (ntrdma_ring_consume prod cons cap).cons_idx ≤
        (ntrdma_ring_consume prod cons cap).cons_end ∧
      (ntrdma_ring_consume prod cons cap).cons_end ≤ cap ∧
      (ntrdma_ring_consume prod cons cap).cons_idx < cap) := by
  by_cases h2 : 2 * cap < 4294967296
  · obtain ⟨hp, hc, hb⟩ := ntrdma_ring_valid_bounds prod cons cap h2 hv
    rw [ntrdma_ring_consume_eq prod cons cap h2 hp hc,
      ntrdma_ring_produce_eq prod cons cap h2 hp hc]
    refine ⟨⟨?_, ?_, ?_, ?_, ?_⟩, fun _ => ⟨?_, ?_, ?_, ?_, ?_⟩⟩ <;>
      split_ifs at hb ⊢ <;> simp only [] <;> first | omega | simp
  · obtain ⟨hp, hc, e1, -, -⟩ := ntrdma_ring_ctg_large_cap prod cons cap hk h2 hv
    rw [e1]
    exact ⟨⟨Or.inl rfl, Nat.zero_add _, Nat.le_of_lt hp, Nat.le_refl _, hp⟩,
      fun h => absurd h h2⟩

/-- Witness of C18 (amended): `cap = 4`, `prod = 6`, `cons = 3`. -/
theorem ntrdma_ring_ranges_well_formed_witness :
    (4 < 4294967296 ∧ ntrdma_ring_valid 6 3 4 = true ∧ 2 * 4 < 4294967296) ∧
    (ntrdma_ring_produce 6 3 4).base + (ntrdma_ring_produce 6 3 4).prod_idx = 6 ∧
    (ntrdma_ring_consume 6 3 4).cons_idx ≤ (ntrdma_ring_consume 6 3 4).cons_end :=
  ⟨by decide,
    (ntrdma_ring_ranges_well_formed 6 3 4 (by decide) (by decide)).1.2.1,
    ((ntrdma_ring_ranges_well_formed 6 3 4 (by decide) (by decide)).2 (by decide)).2.2.1⟩

/-- Counterexample to C18 as stated: with `cap = 2 ^ 31 + 4` the shift `cap << 1`
wraps to `8`, so `prod = 2`, `cons = 5` passes `ntrdma_ring_valid` (count `5`),
while `ntrdma_ring_consume` yields `cons_idx = 5` above `cons_end = 2`. -/
theorem ntrdma_ring_ranges_well_formed_fails_large_cap :
    ntrdma_ring_valid 2 5 2147483652 = true ∧
    (ntrdma_ring_consume 2 5 2147483652).cons_idx = 5 ∧
    (ntrdma_ring_consume 2 5 2147483652).cons_end = 2 ∧
    ¬ ((ntrdma_ring_consume 2 5 2147483652).cons_idx ≤
        (ntrdma_ring_consume 2 5 2147483652).cons_end) := by
  decide

/-- C19: the assertions of `ntrdma_ring_produce` agree with the validity check.
For `0 < cap < 2 ^ 30` and `prod`, `cons` below `2 ^ 31`, one of the two `WARN`
conditions holds if and only if `ntrdma_ring_valid` is false. -/
theorem ntrdma_ring_produce_warn_iff_invalid (prod cons cap : Nat) (hcap : 0 < cap)
    (hk : cap < 1073741824) (hp : prod < 2147483648) (hc : cons < 2147483648) :
    (ntrdma_ring_produce_warn_range prod cons cap = true ∨
      ntrdma_ring_produce_warn_distance prod cons cap = true) ↔
    ntrdma_ring_valid prod cons cap = false := by
  have hs : ∀ a b : Nat, a < 2147483648 → b < 2147483648 →
      s32_sub (s32_of_u32 a) (s32_of_u32 b) = (a : Int) - (b : Int) := by
    intro a b ha hb
    unfold s32_sub s32_of_u32 u32_of_int
    split_ifs <;> omega
  have hcapi : s32_of_u32 cap = (cap : Int) := by
    unfold s32_of_u32; split_ifs <;> omega
  have hsh : u32_shl1 cap = 2 * cap := u32_shl1_eq cap (by omega)
  rw [← Bool.not_eq_true, ntrdma_ring_valid_iff, hsh]
  simp only [ntrdma_ring_produce_warn_range, ntrdma_ring_produce_warn_distance,
    Bool.or_eq_true, Bool.and_eq_true, decide_eq_true_eq, hs prod cons hp hc,
    hs cons prod hc hp, hcapi, hsh]
  by_cases hp2 : prod < 2 * cap
  · by_cases hc2 : cons < 2 * cap
    · rw [ntrdma_ring_count_eq prod cons cap (by omega) hp2 hc2]
      split_ifs <;> omega
    · omega
  · omega

/-- Witness of C19: `cap = 4`, `prod = 1`, `cons = 2`; the distance `7` from
`cons` to `prod` exceeds `cap`, the second `WARN` fires. -/
theorem ntrdma_ring_produce_warn_iff_invalid_witness :
    (0 < 4 ∧ 4 < 1073741824 ∧ 1 < 2147483648 ∧ 2 < 2147483648) ∧
    ((ntrdma_ring_produce_warn_range 1 2 4 = true ∨
      ntrdma_ring_produce_warn_distance 1 2 4 = true) ↔
    ntrdma_ring_valid 1 2 4 = false) :=
  ⟨by decide,
    ntrdma_ring_produce_warn_iff_invalid 1 2 4 (by decide) (by decide) (by decide)
      (by decide)⟩

/-- C20 (amended): consume round trip.  For a valid ring with `2 * cap`
representable in 32 bits, advancing `cons` by `n <= ntrdma_ring_count_ctg` through
`ntrdma_ring_update (cons_idx + n) base cap` subtracts `n` from
`ntrdma_ring_count`, adds `n` to `ntrdma_ring_space` and keeps the ring valid. -/
theorem ntrdma_ring_consume_round_trip (prod cons cap n : Nat) (h2 : 2 * cap < 4294967296)
    (hv : ntrdma_ring_valid prod cons cap = true)
    (hn : n ≤ ntrdma_ring_count_ctg prod cons cap) :
    ntrdma_ring_count prod
        (ntrdma_ring_update ((ntrdma_ring_consume prod cons cap).cons_idx + n)
          (ntrdma_ring_consume prod cons cap).base cap) cap =
      ntrdma_ring_count prod cons cap - n ∧
    n ≤ ntrdma_ring_count prod cons cap ∧
    ntrdma_ring_space prod
        (ntrdma_ring_update ((ntrdma_ring_consume prod cons cap).cons_idx + n)
          (ntrdma_ring_consume prod cons cap).base cap) cap =
      ntrdma_ring_space prod cons cap + n ∧
    ntrdma_ring_valid prod
        (ntrdma_ring_update ((ntrdma_ring_consume prod cons cap).cons_idx + n)
          (ntrdma_ring_consume prod cons cap).base cap) cap = true := by
  obtain ⟨hp, hc, hb⟩ := ntrdma_ring_valid_bounds prod cons cap h2 hv
  have hcnt := ((ntrdma_ring_valid_iff prod cons cap).1 hv).2.2
  obtain ⟨-, -, hs⟩ := ntrdma_ring_count_ctg_eq prod cons cap h2 hv
  rw [hs] at hn
  obtain ⟨c2, e, hlt, hrel, hle⟩ : ∃ c2,
      ntrdma_ring_update ((ntrdma_ring_consume prod cons cap).cons_idx + n)
        (ntrdma_ring_consume prod cons cap).base cap = c2 ∧ c2 < 2 * cap ∧
      (c2 = cons + n ∨ c2 + 2 * cap = cons + n) ∧
      n ≤ (if prod < cons then prod + 2 * cap - cons else prod - cons) := by
    refine ⟨_, rfl, ?_⟩
    rw [ntrdma_ring_consume_eq prod cons cap h2 hp hc] at hn ⊢
    split_ifs at hb hn ⊢ <;> simp only [] at hn ⊢ <;>
      (rw [ntrdma_ring_update_eq _ _ cap h2 (by omega) (by omega)]
       split_ifs <;> omega)
  rw [e]
  have hle2 : (if prod < c2 then prod + 2 * cap - c2 else prod - c2) ≤ cap := by
    split_ifs at hb hle ⊢ <;> omega
  obtain ⟨e1, e2, e3⟩ := ntrdma_ring_closed_forms prod c2 cap h2 hp hlt hle2
  rw [e1, e2, e3, ntrdma_ring_space_eq prod cons cap h2 hp hc hcnt,
    ntrdma_ring_count_eq prod cons cap h2 hp hc]
  refine ⟨?_, ?_, ?_, rfl⟩ <;> split_ifs at hb hle hle2 ⊢ <;> omega

/-- Witness of C20 (amended): `cap = 4`, `prod = 1`, `cons = 6`, batch of `n = 2`. -/
theorem ntrdma_ring_consume_round_trip_witness :
    (2 * 4 < 4294967296 ∧ ntrdma_ring_valid 1 6 4 = true ∧
      2 ≤ ntrdma_ring_count_ctg 1 6 4) ∧
    ntrdma_ring_count 1
        (ntrdma_ring_update ((ntrdma_ring_consume 1 6 4).cons_idx + 2)
          (ntrdma_ring_consume 1 6 4).base 4) 4 =
      ntrdma_ring_count 1 6 4 - 2 :=
  ⟨by decide,
    (ntrdma_ring_consume_round_trip 1 6 4 2 (by decide) (by decide) (by decide)).1⟩

/-- Counterexample to C20 as stated: with `cap = 2 ^ 31 + 1` the shift `cap << 1`
wraps to `2`; the ring `prod = 0`, `cons = 1` passes `ntrdma_ring_valid` with
`ntrdma_ring_count_ctg` equal to `0 - 1` modulo `2 ^ 32`, yet after a batch of
`n = 1` the new `cons = 2` is rejected by `ntrdma_ring_valid`. -/
theorem ntrdma_ring_consume_round_trip_fails_large_cap :
    ntrdma_ring_valid 0 1 2147483649 = true ∧
    1 ≤ ntrdma_ring_count_ctg 0 1 2147483649 ∧
    ntrdma_ring_update ((ntrdma_ring_consume 0 1 2147483649).cons_idx + 1)
      (ntrdma_ring_consume 0 1 2147483649).base 2147483649 = 2 ∧
    ntrdma_ring_valid 0
      (ntrdma_ring_update ((ntrdma_ring_consume 0 1 2147483649).cons_idx + 1)
        (ntrdma_ring_consume 0 1 2147483649).base 2147483649) 2147483649 = false := by
  decide

end Ntrdma
